import Mathlib

/-!
# Verification of the SageScript analysis-pipeline core

Shallow embedding of the ArchiMind/SageScript upload subsystem
(`src/upload/worker.py`, `src/upload/models.py`, `src/upload/app.py`,
`src/upload/oauth_utils.py`, `src/upload/services.py`) together with proofs
about the claims of the specification.

Strings are modelled as `List Char` internally; `String` wrappers are
provided at the API surface.
-/

namespace SageScript

/-! ## Character classes (Python's `\s`, `\w`, identifiers) -/

/-- Python whitespace: the characters for which `str.isspace()` holds, which
is also the set matched by the regex `\s` on `str` patterns and the set
stripped by `str.strip()`/`lstrip()`/`rstrip()`: `\t`, `\n`, `\v`, `\f`,
`\r`, the separators `\x1c`-`\x1f`, space, NEL `\x85`, NBSP `\xa0`, and the
Unicode space characters (U+1680, U+2000-U+200A, U+2028, U+2029, U+202F,
U+205F, U+3000). -/
def isPySpace (c : Char) : Bool :=
  c = ' ' || c = '\t' || c = '\n' || c = '\x0d' || c = '\x0b' || c = '\x0c'
    || c = '\x1c' || c = '\x1d' || c = '\x1e' || c = '\x1f' || c = '\x85'
    || c = '\xa0' || c = '\u1680' || c = '\u2000' || c = '\u2001'
    || c = '\u2002' || c = '\u2003' || c = '\u2004' || c = '\u2005'
    || c = '\u2006' || c = '\u2007' || c = '\u2008' || c = '\u2009'
    || c = '\u200a' || c = '\u2028' || c = '\u2029' || c = '\u202f'
    || c = '\u205f' || c = '\u3000'

/-- Python word character (`\w`) restricted to ASCII: `[A-Za-z0-9_]`. -/
def isWordChar (c : Char) : Bool :=
  c.isAlpha || c.isDigit || c = '_'

/-- A character allowed in a Mermaid node identifier after the first letter:
`[A-Za-z0-9_\-]` (the character class of the declaration regex in
`AnalysisWorker._sanitize_mermaid_code`). -/
def isIdentChar (c : Char) : Bool :=
  c.isAlpha || c.isDigit || c = '_' || c = '-'

/-- Line boundaries of Python `str.splitlines`: `\n`, `\r`, `\v`, `\f`, the
file/group/record separators `\x1c`-`\x1e`, NEL `\x85`, and the line/paragraph
separators U+2028/U+2029 (with `\r\n` counting as a single boundary). -/
def isLineBreak (c : Char) : Bool :=
  c = '\n' || c = '\x0d' || c = '\x0b' || c = '\x0c'
    || c = '\x1c' || c = '\x1d' || c = '\x1e' || c = '\x85'
    || c = '\u2028' || c = '\u2029'

/-! ## Basic list-of-char utilities (Python `str` methods) -/

/-- Python `str.lstrip()`. -/
def pyStripLeft (cs : List Char) : List Char :=
  cs.dropWhile isPySpace

/-- Python `str.rstrip()`. -/
def pyStripRight (cs : List Char) : List Char :=
  (cs.reverse.dropWhile isPySpace).reverse

/-- Python `str.strip()`. -/
def pyStrip (cs : List Char) : List Char :=
  pyStripRight (pyStripLeft cs)

/-- Python `str.lower()` on the ASCII fragment. -/
def pyLower (cs : List Char) : List Char :=
  cs.map Char.toLower

/-! ## Quota tracker (admission control), from `src/upload/app.py`

`ArchiMindApplication._api_check_limit`: an authenticated caller always has
`can_generate = True`; an anonymous session with `count` prior analyses has
`can_generate = count < limit` where `limit = ANONYMOUS_GENERATION_LIMIT`.

`ArchiMindApplication._api_analyze`: an anonymous request is rejected when
`count >= limit`; authenticated requests skip the quota check entirely. -/

/-- `can_generate` as computed by `_api_check_limit`. -/
def checkLimitCanGenerate (authenticated : Bool) (count limit : Nat) : Bool :=
  if authenticated then true else count < limit

/-- Whether `_api_analyze` admits the request past the rate-limiting check
(`True` means the 403 "Generation limit reached" branch is not taken). -/
def apiAnalyzeAdmits (authenticated : Bool) (count limit : Nat) : Bool :=
  if authenticated then true
  else if count ≥ limit then false else true

/-! ## Repository history (bounded per-owner store), from `src/upload/models.py`

`RepositoryHistory.add_or_update` operates on the set of rows of one owner
(`user_id` is fixed by the query filters); the rows are modelled as a list. -/

/-- One `repository_history` row of a fixed owner. -/
structure HistEntry where
  entryId : Nat
  repoUrl : String
  repoName : String
  documentation : Option String
  hldGraph : Option String
  lldGraph : Option String
  chatSummary : Option String
  lastAccessed : Nat
  createdAt : Nat
  deriving Repr, DecidableEq

/-- The update branch of `add_or_update`: `.first()` selects the first row
matching the repo URL and overwrites its artifact fields and
`last_accessed`. -/
def updateExisting (url : String) (doc hld lld cs : Option String) (now : Nat) :
    List HistEntry → List HistEntry
  | [] => []
  | e :: rest =>
    if e.repoUrl = url then
      { e with documentation := doc, hldGraph := hld, lldGraph := lld,
               chatSummary := cs, lastAccessed := now } :: rest
    else e :: updateExisting url doc hld lld cs now rest

/-- `order_by(last_accessed.asc()).first()`: the first row with minimal
`last_accessed` (ties resolved to the leftmost, a deterministic model of the
database's arbitrary tie order). -/
def oldestEntry : List HistEntry → Option HistEntry
  | [] => none
  | e :: rest =>
    match oldestEntry rest with
    | none => some e
    | some m => if e.lastAccessed ≤ m.lastAccessed then some e else some m

/-- `db.session.delete(oldest)`: remove the selected row (first occurrence). -/
def removeEntry (m : HistEntry) : List HistEntry → List HistEntry
  | [] => []
  | e :: rest => if e = m then rest else e :: removeEntry m rest

/-- The eviction step of `add_or_update`: after the insert is flushed, if
the owner's row count is at least 5, delete the row selected by
`order_by(last_accessed.asc()).first()`. -/
def evictIfNeeded (l : List HistEntry) : List HistEntry :=
  if l.length ≥ 5 then
    match oldestEntry l with
    | some m => removeEntry m l
    | none => l
  else l

/-- The row constructed by the insert branch of `add_or_update`
(`last_accessed = created_at = now`). -/
def newHistEntry (newId : Nat) (url name : String)
    (doc hld lld cs : Option String) (now : Nat) : HistEntry :=
  ⟨newId, url, name, doc, hld, lld, cs, now, now⟩

/-- `RepositoryHistory.add_or_update` for one owner.  The count query runs
after `db.session.add` and autoflush, so the pending insert is included in
`count` before the `count >= 5` eviction test. -/
def addOrUpdate (entries : List HistEntry) (newId : Nat) (url name : String)
    (doc hld lld cs : Option String) (now : Nat) : List HistEntry :=
  if entries.any (fun e => e.repoUrl = url) then
    updateExisting url doc hld lld cs now entries
  else
    evictIfNeeded (entries ++ [newHistEntry newId url name doc hld lld cs now])

/-! ## History read path with Redis cache, from `src/upload/oauth_utils.py` -/

/-- One row as consumed by the read path's projection. -/
structure RepoRec where
  entryId : Nat
  repoName : String
  repoUrl : String
  lastAccessed : Nat
  documentation : Option String
  hldGraph : Option String
  lldGraph : Option String
  deriving Repr, DecidableEq

/-- The summary dictionary built in `get_user_repository_history`. -/
structure HistorySummary where
  entryId : Nat
  repoName : String
  repoUrl : String
  lastAccessed : Nat
  hasDocumentation : Bool
  hasHld : Bool
  hasLld : Bool
  deriving Repr, DecidableEq

/-- Projection of one row to its summary view. -/
def projectSummary (r : RepoRec) : HistorySummary :=
  ⟨r.entryId, r.repoName, r.repoUrl, r.lastAccessed,
   r.documentation.isSome, r.hldGraph.isSome, r.lldGraph.isSome⟩

/-- Stable insertion for ordering by `last_accessed` descending
(`User.get_recent_repositories`). -/
def insertLaDesc (x : RepoRec) : List RepoRec → List RepoRec
  | [] => [x]
  | y :: ys => if x.lastAccessed > y.lastAccessed then x :: y :: ys
               else y :: insertLaDesc x ys

/-- `order_by(last_accessed.desc())` as a stable sort. -/
def sortByLaDesc : List RepoRec → List RepoRec
  | [] => []
  | x :: xs => insertLaDesc x (sortByLaDesc xs)

/-- `get_cached_history`: `None` when the Redis client is absent; otherwise
the stored projection, if any.  The raw-payload truthiness test
`if cached_data:` passes for every stored list because the JSON text of a
list is never the empty string. -/
def getCachedHistory (redisUp : Bool) (cache : Option (List HistorySummary)) :
    Option (List HistorySummary) :=
  if redisUp then cache else none

/-- `get_user_repository_history`, returning the served list together with the
cache state after the call.  `userRepos = none` models a missing user row. -/
def getUserRepositoryHistory (redisUp useCache : Bool)
    (cache : Option (List HistorySummary)) (userRepos : Option (List RepoRec)) :
    List HistorySummary × Option (List HistorySummary) :=
  let cached := if useCache then getCachedHistory redisUp cache else none
  -- `if cached:` — false both for `None` and for the empty list
  let cachedTruthy := match cached with
    | some l => !l.isEmpty
    | none => false
  if cachedTruthy then (cached.getD [], cache)
  else
    match userRepos with
    | none => ([], cache)
    | some repos =>
      let data := ((sortByLaDesc repos).take 5).map projectSummary
      (data, if useCache && redisUp then some data else cache)

/-! ## Mermaid sanitizer, from `AnalysisWorker._sanitize_mermaid_code`
(`src/upload/worker.py`)

The pass has three phases, in source order:
1. collapse hard line breaks inside `[...]` node labels
   (`re.sub(r"\[([^\]]*?)\n\s*([^\]]*?)\]", ...)`),
2. rename node identifiers found at declaration sites
   (`\b([A-Za-z][A-Za-z0-9_\-]*)\s*\[`) to camelCase, replacing every
   whole-token occurrence, longest identifiers first,
3. per line: drop lifecycle-directive lines (`activate `/`deactivate `
   prefixes after strip, case-insensitive), remove stray single letters
   between `]` and an arrow (`\]\s+[A-Za-z]\s+(?=[-<])` → `"] "`),
   right-strip, and join with `\n`.

Recursions that skip ahead in the input are written with an explicit fuel
argument (the wrappers pass the input length, which is always sufficient),
so that all definitions compute by kernel reduction. -/

/-- Split a character list at the first `']'`: `some (before, after)` with
`cs = before ++ ']' :: after`, or `none` when there is no `']'`. -/
def splitAtRB : List Char → Option (List Char × List Char)
  | [] => none
  | ']' :: t => some ([], t)
  | c :: t =>
    match splitAtRB t with
    | some (a, b) => some (c :: a, b)
    | none => none

/-- Replace every maximal run of whitespace by a single space
(`re.sub(r"\s+", " ", ·)`); the flag records whether the previous character
was part of a whitespace run. -/
def wsCollapseGo (prevWs : Bool) : List Char → List Char
  | [] => []
  | c :: t =>
    if isPySpace c then
      if prevWs then wsCollapseGo true t else ' ' :: wsCollapseGo true t
    else c :: wsCollapseGo false t

/-- `re.sub(r"\s+", " ", ·)`. -/
def wsCollapse (cs : List Char) : List Char := wsCollapseGo false cs

/-- Phase 1 scanner.  A match of `\[([^\]]*?)\n\s*([^\]]*?)\]` at a `'['`
exists exactly when the first `']'` after it exists and a `'\n'` occurs
before that `']'`; the replacement is the bracketed content with whitespace
runs collapsed and stripped (the lazy/greedy group split inside the Python
replacement normalises to exactly this).  On a failed match the scan
advances one character; on success it resumes after the `']'`. -/
def collapseBracketsFuel : Nat → List Char → List Char
  | 0, cs => cs
  | _ + 1, [] => []
  | f + 1, c :: rest =>
    if c = '[' then
      match splitAtRB rest with
      | some (content, after) =>
        if content.contains '\n' then
          '[' :: (pyStrip (wsCollapse content) ++ ']' :: collapseBracketsFuel f after)
        else '[' :: collapseBracketsFuel f rest
      | none => '[' :: collapseBracketsFuel f rest
    else c :: collapseBracketsFuel f rest

/-- Phase 1 of the sanitizer. -/
def collapseBrackets (cs : List Char) : List Char :=
  collapseBracketsFuel cs.length cs

/-- `re.split(r'[_\-]', s)`: split at every `_` or `-`, keeping empty
segments. -/
def splitSeps : List Char → List (List Char)
  | [] => [[]]
  | c :: t =>
    if c = '_' || c = '-' then [] :: splitSeps t
    else
      match splitSeps t with
      | [] => [[c]]
      | p :: ps => (c :: p) :: ps

/-- Python `str.capitalize()`: first character uppercased, the rest
lowercased. -/
def pyCapitalize : List Char → List Char
  | [] => []
  | c :: t => c.toUpper :: t.map Char.toLower

/-- `to_camel_case` from the source: single-segment identifiers are returned
unchanged; otherwise the first segment is lowercased and the remaining
non-empty segments capitalized, with a literal `node` prefix when the result
would not start with a letter. -/
def toCamelCase (cs : List Char) : List Char :=
  match splitSeps cs with
  | [] => cs
  | [_] => cs
  | p :: ps =>
    let camel := pyLower p ++ ((ps.filter (fun w => !w.isEmpty)).map pyCapitalize).flatten
    match camel with
    | [] => camel
    | c :: _ => if c.isAlpha then camel else 'n' :: 'o' :: 'd' :: 'e' :: camel

/-- Phase 2 identifier collection: `finditer` of
`\b([A-Za-z][A-Za-z0-9_\-]*)\s*\[`.  The flag records whether the previous
character of the input is a word character (for `\b`); on a match the scan
resumes after the `'['`, otherwise it advances one character. -/
def scanDeclsFuel : Nat → Bool → List Char → List (List Char)
  | 0, _, _ => []
  | _ + 1, _, [] => []
  | f + 1, prevWord, c :: rest =>
    if c.isAlpha && !prevWord then
      let tl := rest.takeWhile isIdentChar
      let afterSp := (rest.drop tl.length).dropWhile isPySpace
      if afterSp.head? = some '[' then
        (c :: tl) :: scanDeclsFuel f false afterSp.tail
      else scanDeclsFuel f (isWordChar c) rest
    else scanDeclsFuel f (isWordChar c) rest

/-- All identifier declaration sites of the code, in scan order. -/
def scanDecls (cs : List Char) : List (List Char) :=
  scanDeclsFuel cs.length false cs

/-- Keep the first occurrence of each element (Python `dict` key order). -/
def dedupFirstGo (seen : List (List Char)) : List (List Char) → List (List Char)
  | [] => []
  | x :: xs =>
    if seen.contains x then dedupFirstGo seen xs
    else x :: dedupFirstGo (x :: seen) xs

/-- Key order of `node_id_map`. -/
def dedupFirst (l : List (List Char)) : List (List Char) := dedupFirstGo [] l

/-- The keys of `node_id_map`: declared identifiers whose camelCase form
differs. -/
def nodeIdMap (cs : List Char) : List (List Char) :=
  (dedupFirst (scanDecls cs)).filter (fun old => toCamelCase old ≠ old)

/-- Stable insertion by length descending. -/
def insertLenDesc (x : List Char) : List (List Char) → List (List Char)
  | [] => [x]
  | y :: ys =>
    if y.length ≥ x.length then y :: insertLenDesc x ys else x :: y :: ys

/-- `sorted(keys, key=len, reverse=True)` — a stable sort, so ties keep
insertion order. -/
def sortLenDesc (l : List (List Char)) : List (List Char) :=
  l.foldl (fun acc x => insertLenDesc x acc) []

/-- `\b` on the right edge of a token whose last character has wordness
`lastIsWord`, looking at the remaining input. -/
def boundaryAfter (lastIsWord : Bool) : List Char → Bool
  | [] => lastIsWord
  | c :: _ => lastIsWord != isWordChar c

/-- One `re.sub(r'\b' + re.escape(old) + r'\b', new, ·)` pass.  The flag is
the wordness of the previous character of the *original* input (after a
match the scanner continues with the wordness of `old`'s last character). -/
def replaceTokenFuel (old new : List Char) : Nat → Bool → List Char → List Char
  | 0, _, cs => cs
  | _ + 1, _, [] => []
  | f + 1, prevWord, c :: rest =>
    if !old.isEmpty && old.isPrefixOf (c :: rest)
        && (prevWord != isWordChar (old.headD ' '))
        && boundaryAfter (isWordChar (old.getLastD ' ')) ((c :: rest).drop old.length) then
      new ++ replaceTokenFuel old new f (isWordChar (old.getLastD ' ')) ((c :: rest).drop old.length)
    else c :: replaceTokenFuel old new f (isWordChar c) rest

/-- Whole-token replacement of `old` by `new`. -/
def replaceToken (old new cs : List Char) : List Char :=
  replaceTokenFuel old new cs.length false cs

/-- Phase 2 of the sanitizer: apply the substitutions longest-first. -/
def applyRenames (cs : List Char) : List Char :=
  (sortLenDesc (nodeIdMap cs)).foldl
    (fun acc old => replaceToken old (toCamelCase old) acc) cs

/-- Match `\s+[A-Za-z]\s+(?=[-<])` directly after a `']'`; returns the
suffix starting at the looked-ahead arrow character. -/
def matchStray (rest : List Char) : Option (List Char) :=
  if (rest.takeWhile isPySpace).isEmpty then none
  else
    let r1 := rest.dropWhile isPySpace
    if ((r1.head?.map Char.isAlpha).getD false) then
      let rest2 := r1.tail
      if (rest2.takeWhile isPySpace).isEmpty then none
      else
        let r2 := rest2.dropWhile isPySpace
        if (r2.head? = some '-' || r2.head? = some '<') then some r2 else none
    else none

/-- `letter_between_nodes.sub("] ", line)`: replace `]␣L␣` (whitespace runs,
one stray letter) by `"] "` when an arrow character follows. -/
def letterSubFuel : Nat → List Char → List Char
  | 0, cs => cs
  | _ + 1, [] => []
  | f + 1, c :: rest =>
    if c = ']' then
      match matchStray rest with
      | some rest2 => ']' :: ' ' :: letterSubFuel f rest2
      | none => ']' :: letterSubFuel f rest
    else c :: letterSubFuel f rest

/-- The stray-letter removal pass on one line. -/
def letterSub (cs : List Char) : List Char := letterSubFuel cs.length cs

/-- Python `str.splitlines()` on the `isLineBreak` boundaries (`\r\n`
counting as one); no entry is produced after a trailing terminator. -/
def splitLinesFuel : Nat → List Char → List Char → List (List Char)
  | 0, cur, _ => if cur.isEmpty then [] else [cur.reverse]
  | _ + 1, cur, [] => if cur.isEmpty then [] else [cur.reverse]
  | f + 1, cur, c :: t =>
    if c = '\x0d' then
      if t.head? = some '\n' then cur.reverse :: splitLinesFuel f [] t.tail
      else cur.reverse :: splitLinesFuel f [] t
    else if isLineBreak c then cur.reverse :: splitLinesFuel f [] t
    else splitLinesFuel f (c :: cur) t

/-- `str.splitlines()`. -/
def splitLines (cs : List Char) : List (List Char) := splitLinesFuel cs.length [] cs

/-- `"\n".join(lines)`. -/
def joinLines : List (List Char) → List Char
  | [] => []
  | [l] => l
  | l :: ls => l ++ '\n' :: joinLines ls

/-- `stripped.lower().startswith("activate ") or
stripped.lower().startswith("deactivate ")` — note the trailing space in
both keywords. -/
def isLifecycleLine (line : List Char) : Bool :=
  "activate ".toList.isPrefixOf (pyLower (pyStrip line))
  || "deactivate ".toList.isPrefixOf (pyLower (pyStrip line))

/-- Per-line cleanup of a kept line: stray-letter removal then
`line.rstrip()`. -/
def cleanupLine (line : List Char) : List Char := pyStripRight (letterSub line)

/-- The per-line loop of phase 3. -/
def filterLines : List (List Char) → List (List Char)
  | [] => []
  | l :: ls =>
    if isLifecycleLine l then filterLines ls
    else cleanupLine l :: filterLines ls

/-- `AnalysisWorker._sanitize_mermaid_code` on character lists. -/
def sanitizeMermaidL (code : List Char) : List Char :=
  joinLines (filterLines (splitLines (applyRenames (collapseBrackets code))))

/-- `AnalysisWorker._sanitize_mermaid_code`. -/
def sanitizeMermaid (code : String) : String :=
  (sanitizeMermaidL code.toList).asString

/-! ## JSON extraction, from `AnalysisWorker._clean_json_response` and
`AnalysisWorker._parse_graph_data` (`src/upload/worker.py`)

`json.loads` is an external library; it is embedded as a strict
recursive-descent parser of the JSON grammar (integers only — the pipeline's
claims never involve fractional numbers). -/

/-- Index of the first occurrence of `c` (`str.find`). -/
def findIdxOf (c : Char) (cs : List Char) : Option Nat :=
  cs.findIdx? (· = c)

/-- Index of the last occurrence of `c` (`str.rfind`). -/
def rfindIdxOf (c : Char) (cs : List Char) : Option Nat :=
  match cs.reverse.findIdx? (· = c) with
  | some i => some (cs.length - 1 - i)
  | none => none

/-- `AnalysisWorker._clean_json_response`: strip Markdown fences and slice to
the outermost braces when the text does not already start with `{`. -/
def cleanJsonResponse (raw : List Char) : List Char :=
  if raw.isEmpty then []
  else
    let cleaned := pyStrip raw
    let cleaned :=
      if "```".toList.isPrefixOf cleaned then
        let c1 := cleaned.dropWhile (· = '`')
        let c2 := if "json".toList.isPrefixOf c1 then c1.drop 4 else c1
        let c3 := pyStrip c2
        if "````".toList.isSuffixOf c3 then c3.take (c3.length - 4)
        else if "```".toList.isSuffixOf c3 then c3.take (c3.length - 3)
        else c3
      else cleaned
    let cleaned := pyStrip cleaned
    match cleaned with
    | [] => []
    | c :: _ =>
      if c = '{' then cleaned
      else
        match findIdxOf '{' cleaned, rfindIdxOf '}' cleaned with
        | some s, some e =>
          if e > s then (cleaned.drop s).take (e + 1 - s) else cleaned
        | _, _ => cleaned

/-- JSON values (numbers restricted to integers). -/
inductive JsonVal where
  | null
  | bool (b : Bool)
  | num (n : Int)
  | str (s : String)
  | arr (elems : List JsonVal)
  | obj (fields : List (String × JsonVal))

/-- JSON insignificant whitespace. -/
def isJsonWs (c : Char) : Bool :=
  c = ' ' || c = '\t' || c = '\n' || c = '\x0d'

/-- Parse the tail of a JSON string literal (after the opening quote). -/
def parseStrBody : List Char → Option (List Char × List Char)
  | [] => none
  | '"' :: rest => some ([], rest)
  | '\\' :: e :: rest =>
    let esc : Option Char :=
      if e = 'n' then some '\n'
      else if e = 't' then some '\t'
      else if e = 'r' then some '\x0d'
      else if e = 'b' then some '\x08'
      else if e = 'f' then some '\x0c'
      else if e = '"' then some '"'
      else if e = '\\' then some '\\'
      else if e = '/' then some '/'
      else none
    match esc with
    | some c =>
      match parseStrBody rest with
      | some (s, r) => some (c :: s, r)
      | none => none
    | none => none
  | c :: rest =>
    if c.toNat < 32 then none
    else
      match parseStrBody rest with
      | some (s, r) => some (c :: s, r)
      | none => none

/-- Parse a JSON integer (a leading minus and digits; a following `.`, `e`
or `E` is rejected by the integer model). -/
def parseIntBody (cs : List Char) : Option (Int × List Char) :=
  let (neg, cs') : Bool × List Char :=
    match cs with
    | '-' :: t => (true, t)
    | _ => (false, cs)
  let digits := cs'.takeWhile Char.isDigit
  let rest := cs'.drop digits.length
  if digits.isEmpty then none
  else
    match rest with
    | '.' :: _ => none
    | 'e' :: _ => none
    | 'E' :: _ => none
    | _ =>
      let n : Nat := digits.foldl (fun acc d => acc * 10 + (d.toNat - 48)) 0
      some (if neg then -(n : Int) else (n : Int), rest)

/-- Replace the value stored under `k`, keeping the key's position; append
when absent (Python `dict` assignment order). -/
def objInsert (k : String) (v : JsonVal) :
    List (String × JsonVal) → List (String × JsonVal)
  | [] => [(k, v)]
  | (k', v') :: rest =>
    if k' = k then (k, v) :: rest else (k', v') :: objInsert k v rest

mutual

/-- Fuel-indexed recursive-descent JSON value parser. -/
def parseJsonF : Nat → List Char → Option (JsonVal × List Char)
  | 0, _ => none
  | f + 1, cs₀ =>
    let cs := cs₀.dropWhile isJsonWs
    match cs with
    | [] => none
    | c :: rest =>
      if c = 'n' then
        if "ull".toList.isPrefixOf rest then some (.null, rest.drop 3) else none
      else if c = 't' then
        if "rue".toList.isPrefixOf rest then some (.bool true, rest.drop 3) else none
      else if c = 'f' then
        if "alse".toList.isPrefixOf rest then some (.bool false, rest.drop 4) else none
      else if c = '"' then
        match parseStrBody rest with
        | some (s, r) => some (.str s.asString, r)
        | none => none
      else if c = '{' then
        match rest.dropWhile isJsonWs with
        | '}' :: r => some (.obj [], r)
        | _ => parseFieldsF f [] rest
      else if c = '[' then
        match rest.dropWhile isJsonWs with
        | ']' :: r => some (.arr [], r)
        | _ => parseElemsF f [] rest
      else if c = '-' || c.isDigit then
        match parseIntBody cs with
        | some (n, r) => some (.num n, r)
        | none => none
      else none

/-- Parse `"key": value (, "key": value)* }` — the members of an object. -/
def parseFieldsF : Nat → List (String × JsonVal) → List Char →
    Option (JsonVal × List Char)
  | 0, _, _ => none
  | f + 1, acc, cs =>
    match cs.dropWhile isJsonWs with
    | '"' :: rest =>
      match parseStrBody rest with
      | some (k, r1) =>
        match r1.dropWhile isJsonWs with
        | ':' :: r2 =>
          match parseJsonF f r2 with
          | some (v, r3) =>
            let acc' := objInsert k.asString v acc
            match r3.dropWhile isJsonWs with
            | ',' :: r4 => parseFieldsF f acc' r4
            | '}' :: r4 => some (.obj acc', r4)
            | _ => none
          | none => none
        | _ => none
      | none => none
    | _ => none

/-- Parse `value (, value)* ]` — the elements of an array. -/
def parseElemsF : Nat → List JsonVal → List Char → Option (JsonVal × List Char)
  | 0, _, _ => none
  | f + 1, acc, cs =>
    match parseJsonF f cs with
    | some (v, r1) =>
      match r1.dropWhile isJsonWs with
      | ',' :: r2 => parseElemsF f (acc ++ [v]) r2
      | ']' :: r2 => some (.arr (acc ++ [v]), r2)
      | _ => none
    | none => none

end

/-- `json.loads`: a single JSON value with only whitespace around it. -/
def jsonLoads (cs : List Char) : Option JsonVal :=
  match parseJsonF (cs.length + 8) cs with
  | some (v, rest) => if (rest.dropWhile isJsonWs).isEmpty then some v else none
  | none => none

/-- `parsed.get(key)` on the object's fields. -/
def objGet (fields : List (String × JsonVal)) (k : String) : Option JsonVal :=
  match fields with
  | [] => none
  | (k', v) :: rest => if k' = k then some v else objGet rest k

/-- Outcome of `AnalysisWorker._parse_graph_data` (`DiagramResult`). -/
structure DiagramResult where
  status : String
  graph : Option JsonVal
  message : Option String
  rawPreview : Option String

/-- `AnalysisWorker._parse_graph_data`. -/
def parseGraphData (raw : String) (label : String) : DiagramResult :=
  if raw.isEmpty then
    ⟨"error", none, some ("No " ++ label ++ " data returned."), none⟩
  else
    let normalized := cleanJsonResponse raw.toList
    match jsonLoads normalized with
    | some (.obj fields) =>
      let fields' :=
        match objGet fields "mermaid_code" with
        | some (.str s) => objInsert "mermaid_code" (.str (sanitizeMermaid s)) fields
        | _ => fields
      ⟨"ok", some (.obj fields'), none, none⟩
    | some _ =>
      ⟨"error", none, some (label ++ " data was not a JSON object."),
       some (normalized.take 400).asString⟩
    | none =>
      ⟨"error", none, some ("Failed to parse " ++ label ++ " JSON."),
       some (raw.toList.take 400).asString⟩

/-! ## Pipeline orchestrator, from `AnalysisWorker.run_analysis`
(`src/upload/worker.py`)

The external collaborators (git clone, vector store, generation calls,
wall-clock time) are inputs of the run environment; the function returns the
sequence of status-file writes and the history-save calls performed. -/

/-- `repo_url.rstrip("/").split("/")[-1]`. -/
def repoNameOf (url : String) : String :=
  let revTrimmed := url.toList.reverse.dropWhile (· = '/')
  (revTrimmed.takeWhile (· ≠ '/')).reverse.asString

/-- The assembled `status["result"]` payload of a completed run. -/
structure AnalysisResult where
  chatResponse : String
  hldGraph : DiagramResult
  lldGraph : DiagramResult
  chatSummary : String
  repoName : String
  repoUrl : String

/-- One write of the status file (`AnalysisStatus`).  A missing `timestamp`
key is `none`. -/
structure StatusRec where
  status : String
  result : Option AnalysisResult
  error : Option String
  timestamp : Option Nat

/-- Environment of one run: outcomes of the external calls. -/
structure RunEnv where
  cloneOk : Bool
  vectorEmpty : Bool
  fileContents : List (String × String)
  contextStr : String
  docDocumentation : String
  docHld : String
  docLld : String
  docChatSummary : String
  logId : Option Nat
  logUserId : Option Nat
  endTime : Nat

/-- A call to `save_repository_to_history` made by `_save_to_history`. -/
structure HistorySaveCall where
  userId : Nat
  repoUrl : String
  repoName : String
  documentation : String
  hldGraph : DiagramResult
  lldGraph : DiagramResult
  chatSummary : String

/-- `AnalysisWorker.run_analysis`: returns the list of `_update_status`
writes in order, and the history-save calls. -/
def runAnalysis (repoUrl : String) (env : RunEnv) :
    List StatusRec × List HistorySaveCall :=
  let initial : StatusRec := ⟨"processing", none, none, none⟩
  let repoName := repoNameOf repoUrl
  let body : Except String AnalysisResult :=
    if !env.cloneOk then .error "Failed to clone repository"
    else if env.vectorEmpty && env.fileContents.isEmpty then
      .error "No processable files found in repository"
    else if env.contextStr.isEmpty then
      .error "Failed to retrieve context from vector store"
    else
      .ok { chatResponse := env.docDocumentation
          , hldGraph := parseGraphData env.docHld "HLD"
          , lldGraph := parseGraphData env.docLld "LLD"
          , chatSummary := env.docChatSummary
          , repoName := repoName
          , repoUrl := repoUrl }
  match body with
  | .ok res =>
    let final : StatusRec := ⟨"completed", some res, none, some env.endTime⟩
    let saves : List HistorySaveCall :=
      match env.logId, env.logUserId with
      | some _, some uid =>
        [⟨uid, repoUrl, repoName, env.docDocumentation,
          res.hldGraph, res.lldGraph, env.docChatSummary⟩]
      | _, _ => []
    ([initial, final], saves)
  | .error msg =>
    ([initial, ⟨"error", none, some msg, some env.endTime⟩], [])

/-- Substring test (`needle in hay`). -/
def containsSub (needle : List Char) : List Char → Bool
  | [] => needle.isEmpty
  | c :: t => needle.isPrefixOf (c :: t) || containsSub needle t

/-- Substring test on strings. -/
def strContainsSub (hay needle : String) : Bool :=
  containsSub needle.toList hay.toList

/-- A run environment used by concrete evaluations: clone succeeds, the
vector store is empty, one file is read, context retrieval succeeds, the HLD
generation call fails (empty text) while the other calls return text, and the
job belongs to an authenticated owner. -/
def sampleEnv : RunEnv :=
  { cloneOk := true
  , vectorEmpty := true
  , fileContents := [("main.py", "print(1)")]
  , contextStr := "ctx"
  , docDocumentation := "docs"
  , docHld := ""
  , docLld := "\x7b\"mermaid_code\": \"graph TD\"\x7d"
  , docChatSummary := "summary"
  , logId := some 7
  , logUserId := some 3
  , endTime := 42 }

/-! # Theorems -/

/-! ## C8: admission quota -/

/-- C8: for an anonymous session whose recorded count of prior analyses
equals the limit the admission check returns not-allowed; at `limit - 1` it
returns allowed; authenticated owners are always allowed (both in
`_api_check_limit` and in the `_api_analyze` rate-limit gate). -/
theorem quota_admission_correct (limit : Nat) (hpos : 0 < limit) :
    (∀ count, checkLimitCanGenerate true count limit = true)
    ∧ (∀ count, apiAnalyzeAdmits true count limit = true)
    ∧ checkLimitCanGenerate false limit limit = false
    ∧ apiAnalyzeAdmits false limit limit = false
    ∧ checkLimitCanGenerate false (limit - 1) limit = true
    ∧ apiAnalyzeAdmits false (limit - 1) limit = true := by
  refine ⟨fun _ => rfl, fun _ => rfl, ?_, ?_, ?_, ?_⟩ <;>
    simp [checkLimitCanGenerate, apiAnalyzeAdmits, Nat.sub_lt hpos Nat.one_pos]

/-- Witness for C8 at the default limit 5. -/
theorem quota_admission_correct_witness :
    0 < 5 ∧
    ((∀ count, checkLimitCanGenerate true count 5 = true)
    ∧ (∀ count, apiAnalyzeAdmits true count 5 = true)
    ∧ checkLimitCanGenerate false 5 5 = false
    ∧ apiAnalyzeAdmits false 5 5 = false
    ∧ checkLimitCanGenerate false (5 - 1) 5 = true
    ∧ apiAnalyzeAdmits false (5 - 1) 5 = true) :=
  ⟨by decide, quota_admission_correct 5 (by decide)⟩

/-! ## C10: empty cached history is a cache miss -/

/-- C10: for an owner whose history is empty, the read path treats a cached
empty projection (or an absent cache entry) as a miss: it falls through to
the store, serves the store's (empty) projection, and re-caches the empty
list whenever the cache layer is up. -/
theorem empty_history_cache_miss (redisUp : Bool)
    (cache : Option (List HistorySummary))
    (hcache : cache = some [] ∨ cache = none) :
    getUserRepositoryHistory redisUp true cache (some []) =
      ([], if redisUp then some [] else cache) := by
  rcases hcache with h | h <;> subst h <;> cases redisUp <;> rfl

/-- Witness for C10: a cached empty list with the cache layer up. -/
theorem empty_history_cache_miss_witness :
    (some ([] : List HistorySummary) = some [] ∨
      (some ([] : List HistorySummary)) = none)
    ∧ getUserRepositoryHistory true true (some []) (some []) =
        ([], if true then some [] else some []) :=
  ⟨Or.inl rfl, empty_history_cache_miss true (some []) (Or.inl rfl)⟩

/-! ## C2: terminal status exclusivity -/

/-- C2: every run writes exactly the initial `processing` record (with both
`result` and `error` null) followed by one terminal record; at a terminal
state exactly one of `result`/`error` is non-null (`completed` carries a
result and no error, `error` carries an error and no result). -/
theorem status_terminal_exclusive (u : String) (env : RunEnv) :
    ∃ w1, (runAnalysis u env).1 = [⟨"processing", none, none, none⟩, w1]
      ∧ (w1.status = "completed" ∨ w1.status = "error")
      ∧ (w1.status = "completed" → w1.result.isSome ∧ w1.error = none)
      ∧ (w1.status = "error" → w1.error.isSome ∧ w1.result = none) := by
  have hec : ¬ ("error" : String) = "completed" := by decide
  have hce : ¬ ("completed" : String) = "error" := by decide
  unfold runAnalysis
  cases hc : env.cloneOk
  · exact ⟨_, rfl, Or.inr rfl, fun h => absurd h hec, fun _ => ⟨rfl, rfl⟩⟩
  · cases hv : env.vectorEmpty && env.fileContents.isEmpty
    · cases hctx : env.contextStr.isEmpty
      · exact ⟨_, rfl, Or.inl rfl, fun _ => ⟨rfl, rfl⟩, fun h => absurd h hce⟩
      · exact ⟨_, rfl, Or.inr rfl, fun h => absurd h hec, fun _ => ⟨rfl, rfl⟩⟩
    · exact ⟨_, rfl, Or.inr rfl, fun h => absurd h hec, fun _ => ⟨rfl, rfl⟩⟩

/-! ## C9: timestamps of the status writes -/

/-- C9 (amended): the initial `processing` write carries no timestamp field;
the final write happens on every exit path, success or failure, and is the
only write carrying the end timestamp. -/
theorem status_timestamp_final_only (u : String) (env : RunEnv) :
    ∃ w1, (runAnalysis u env).1 = [⟨"processing", none, none, none⟩, w1]
      ∧ w1.timestamp = some env.endTime := by
  unfold runAnalysis
  cases hc : env.cloneOk
  · exact ⟨_, rfl, rfl⟩
  · cases hv : env.vectorEmpty && env.fileContents.isEmpty
    · cases hctx : env.contextStr.isEmpty
      · exact ⟨_, rfl, rfl⟩
      · exact ⟨_, rfl, rfl⟩
    · exact ⟨_, rfl, rfl⟩

/-- C9 counterexample: in a concrete run the sequence of `timestamp` fields
of the status writes is `[none, some 42]` — the initial `processing` write
carries no timestamp at all, refuting "every write carries a timestamp equal
to the write time of that transition". -/
theorem status_timestamp_counterexample :
    ((runAnalysis "https://github.com/x/repo" sampleEnv).1.map
      StatusRec.timestamp) = [none, some 42] := by
  rfl

/-! ## C4: zero qualifying files -/

/-- C4: when the clone succeeds, the vector index is empty and the file
source yields zero qualifying files, the run transitions from `processing`
directly to `error` with a message containing "No processable files", and no
history entry is written even when the job has an owner. -/
theorem zero_files_fatal (u : String) (env : RunEnv)
    (h1 : env.cloneOk = true) (h2 : env.vectorEmpty = true)
    (h3 : env.fileContents = []) :
    (runAnalysis u env).1 = [⟨"processing", none, none, none⟩,
      ⟨"error", none, some "No processable files found in repository",
        some env.endTime⟩]
    ∧ strContainsSub "No processable files found in repository"
        "No processable files" = true
    ∧ (runAnalysis u env).2 = [] := by
  unfold runAnalysis
  rw [h1, h2, h3]
  exact ⟨rfl, by decide, rfl⟩

/-- Witness for C4: a concrete owned run with an empty file source. -/
theorem zero_files_fatal_witness :
    ((sampleEnv.cloneOk = true ∧ sampleEnv.vectorEmpty = true
        ∧ ({ sampleEnv with fileContents := [] } : RunEnv).fileContents = [])
    ∧ (runAnalysis "u" { sampleEnv with fileContents := [] }).1 =
        [⟨"processing", none, none, none⟩,
         ⟨"error", none, some "No processable files found in repository",
           some 42⟩])
    ∧ (runAnalysis "u" { sampleEnv with fileContents := [] }).2 = [] := by
  have h := zero_files_fatal "u" { sampleEnv with fileContents := [] }
    rfl rfl rfl
  exact ⟨⟨⟨rfl, rfl, rfl⟩, h.1⟩, h.2.2⟩

/-! ## C3: per-artifact failure does not abort the job -/

/-- C3: when the fatal steps succeed, the HLD generation call returns no
usable text while the LLD output parses, the run still terminates in
`completed`; the result's HLD graph has status `error` and its LLD graph has
status `ok`. -/
theorem hld_failure_isolated (u : String) (env : RunEnv)
    (h1 : env.cloneOk = true)
    (h2 : ¬(env.vectorEmpty = true ∧ env.fileContents = []))
    (h3 : env.contextStr ≠ "")
    (h4 : env.docHld = "")
    (h5 : (parseGraphData env.docLld "LLD").status = "ok") :
    ∃ res, (runAnalysis u env).1 = [⟨"processing", none, none, none⟩,
        ⟨"completed", some res, none, some env.endTime⟩]
      ∧ res.hldGraph.status = "error"
      ∧ res.hldGraph.message = some "No HLD data returned."
      ∧ res.lldGraph.status = "ok" := by
  have hv : (env.vectorEmpty && env.fileContents.isEmpty) = false := by
    cases hve : env.vectorEmpty
    · rfl
    · cases hfc : env.fileContents
      · exact absurd ⟨hve, hfc⟩ h2
      · simp
  have hctx : env.contextStr.isEmpty = false := by
    cases hx : env.contextStr.isEmpty
    · rfl
    · exact absurd ((String.isEmpty_iff _).mp hx) h3
  unfold runAnalysis
  rw [h1, hv, hctx]
  refine ⟨_, rfl, ?_, ?_, h5⟩
  · rw [h4]; rfl
  · rw [h4]; rfl

/-- Witness for C3 on the sample environment. -/
theorem hld_failure_isolated_witness :
    (sampleEnv.cloneOk = true
      ∧ ¬(sampleEnv.vectorEmpty = true ∧ sampleEnv.fileContents = [])
      ∧ sampleEnv.contextStr ≠ ""
      ∧ sampleEnv.docHld = ""
      ∧ (parseGraphData sampleEnv.docLld "LLD").status = "ok")
    ∧ ∃ res, (runAnalysis "u" sampleEnv).1 = [⟨"processing", none, none, none⟩,
        ⟨"completed", some res, none, some 42⟩]
      ∧ res.hldGraph.status = "error"
      ∧ res.hldGraph.message = some "No HLD data returned."
      ∧ res.lldGraph.status = "ok" :=
  ⟨⟨rfl, by decide, by decide, rfl, by rfl⟩,
   hld_failure_isolated "u" sampleEnv rfl (by decide) (by decide) rfl (by rfl)⟩

/-! ## C1: history upsert and eviction -/

theorem updateExisting_length (url : String) (doc hld lld cs : Option String)
    (now : Nat) (es : List HistEntry) :
    (updateExisting url doc hld lld cs now es).length = es.length := by
  induction es with
  | nil => rfl
  | cons e rest ih =>
    unfold updateExisting
    split <;> simp [ih]

theorem updateExisting_updated (url : String) (doc hld lld cs : Option String)
    (now : Nat) (es : List HistEntry) (hex : ∃ e ∈ es, e.repoUrl = url) :
    ∃ e ∈ updateExisting url doc hld lld cs now es,
      e.repoUrl = url ∧ e.lastAccessed = now := by
  induction es with
  | nil => simp at hex
  | cons e rest ih =>
    unfold updateExisting
    by_cases h : e.repoUrl = url
    · rw [if_pos h]
      exact ⟨_, List.mem_cons_self _ _, h, rfl⟩
    · rw [if_neg h]
      rcases hex with ⟨x, hx, hurl⟩
      rcases List.mem_cons.mp hx with rfl | hx'
      · exact absurd hurl h
      · rcases ih ⟨x, hx', hurl⟩ with ⟨y, hy, hp⟩
        exact ⟨y, List.mem_cons_of_mem _ hy, hp⟩

theorem oldestEntry_nil : oldestEntry ([] : List HistEntry) = none := rfl

theorem oldestEntry_cons_none {rest : List HistEntry} (e : HistEntry)
    (h : oldestEntry rest = none) : oldestEntry (e :: rest) = some e := by
  unfold oldestEntry
  rw [h]

theorem oldestEntry_cons_some {rest : List HistEntry} (e : HistEntry)
    {m' : HistEntry} (h : oldestEntry rest = some m') :
    oldestEntry (e :: rest) =
      if e.lastAccessed ≤ m'.lastAccessed then some e else some m' := by
  unfold oldestEntry
  rw [h]

theorem oldestEntry_cons_isSome (e : HistEntry) (rest : List HistEntry) :
    (oldestEntry (e :: rest)).isSome := by
  cases h : oldestEntry rest with
  | none => rw [oldestEntry_cons_none e h]; rfl
  | some m' =>
    rw [oldestEntry_cons_some e h]
    split <;> rfl

theorem oldestEntry_mem {l : List HistEntry} {m : HistEntry}
    (h : oldestEntry l = some m) : m ∈ l := by
  induction l generalizing m with
  | nil => simp [oldestEntry] at h
  | cons e rest ih =>
    cases hr : oldestEntry rest with
    | none =>
      rw [oldestEntry_cons_none e hr] at h
      simp only [Option.some.injEq] at h
      exact h ▸ List.mem_cons_self _ _
    | some m' =>
      rw [oldestEntry_cons_some e hr] at h
      by_cases hle : e.lastAccessed ≤ m'.lastAccessed
      · rw [if_pos hle] at h
        simp only [Option.some.injEq] at h
        exact h ▸ List.mem_cons_self _ _
      · rw [if_neg hle] at h
        simp only [Option.some.injEq] at h
        exact h ▸ List.mem_cons_of_mem _ (ih hr)

theorem oldestEntry_le {l : List HistEntry} {m : HistEntry}
    (h : oldestEntry l = some m) :
    ∀ e ∈ l, m.lastAccessed ≤ e.lastAccessed := by
  induction l generalizing m with
  | nil => simp [oldestEntry] at h
  | cons e rest ih =>
    cases hr : oldestEntry rest with
    | none =>
      rw [oldestEntry_cons_none e hr] at h
      simp only [Option.some.injEq] at h
      cases rest with
      | nil =>
        intro x hx
        rw [List.mem_singleton.mp hx, ← h]
      | cons b bs =>
        have h2 := oldestEntry_cons_isSome b bs
        rw [hr] at h2
        simp at h2
    | some m' =>
      rw [oldestEntry_cons_some e hr] at h
      intro x hx
      rcases List.mem_cons.mp hx with heq | hx'
      · rw [heq]
        by_cases hle : e.lastAccessed ≤ m'.lastAccessed
        · rw [if_pos hle] at h; simp only [Option.some.injEq] at h
          rw [← h]
        · rw [if_neg hle] at h; simp only [Option.some.injEq] at h
          rw [← h]
          exact Nat.le_of_lt (Nat.lt_of_not_le hle)
      · by_cases hle : e.lastAccessed ≤ m'.lastAccessed
        · rw [if_pos hle] at h; simp only [Option.some.injEq] at h
          rw [← h]
          exact Nat.le_trans hle (ih hr x hx')
        · rw [if_neg hle] at h; simp only [Option.some.injEq] at h
          rw [← h]
          exact ih hr x hx'

theorem oldestEntry_append_singleton {l : List HistEntry} {x : HistEntry}
    (hne : l ≠ [])
    (hall : ∀ e ∈ l, e.lastAccessed < x.lastAccessed) :
    oldestEntry (l ++ [x]) = oldestEntry l := by
  induction l with
  | nil => exact absurd rfl hne
  | cons e rest ih =>
    cases rest with
    | nil =>
      have hx := hall e (List.mem_cons_self _ _)
      have h1 : oldestEntry ([x] : List HistEntry) = some x :=
        oldestEntry_cons_none x oldestEntry_nil
      have h2 : oldestEntry ([e] ++ [x]) = some e := by
        show oldestEntry (e :: [x]) = some e
        rw [oldestEntry_cons_some e h1, if_pos (Nat.le_of_lt hx)]
      rw [h2, oldestEntry_cons_none e oldestEntry_nil]
    | cons b bs =>
      have ih' := ih (by simp)
        (fun e he => hall e (List.mem_cons_of_mem _ he))
      show oldestEntry (e :: ((b :: bs) ++ [x])) = _
      cases hr : oldestEntry (b :: bs) with
      | none =>
        have h2 := oldestEntry_cons_isSome b bs
        rw [hr] at h2
        simp at h2
      | some m' =>
        rw [oldestEntry_cons_some e (ih' ▸ hr), oldestEntry_cons_some e hr]

theorem removeEntry_length {m : HistEntry} {l : List HistEntry} (h : m ∈ l) :
    (removeEntry m l).length + 1 = l.length := by
  induction l with
  | nil => simp at h
  | cons e rest ih =>
    unfold removeEntry
    by_cases he : e = m
    · rw [if_pos he]; rfl
    · rw [if_neg he]
      have hm : m ∈ rest := by
        rcases List.mem_cons.mp h with rfl | hx
        · exact absurd rfl he
        · exact hx
      simp only [List.length_cons, ih hm]

theorem mem_removeEntry {e m : HistEntry} {l : List HistEntry}
    (he : e ∈ l) (hne : e ≠ m) : e ∈ removeEntry m l := by
  induction l with
  | nil => simp at he
  | cons a rest ih =>
    unfold removeEntry
    by_cases ha : a = m
    · rw [if_pos ha]
      rcases List.mem_cons.mp he with rfl | hx
      · exact absurd ha hne
      · exact hx
    · rw [if_neg ha]
      rcases List.mem_cons.mp he with rfl | hx
      · exact List.mem_cons_self _ _
      · exact List.mem_cons_of_mem _ (ih hx)

theorem not_mem_removeEntry {m : HistEntry} {l : List HistEntry}
    (hpw : l.Pairwise (fun a b => a.lastAccessed ≠ b.lastAccessed)) :
    m ∉ removeEntry m l := by
  induction l with
  | nil => simp [removeEntry]
  | cons e rest ih =>
    rcases List.pairwise_cons.mp hpw with ⟨h1, h2⟩
    unfold removeEntry
    by_cases he : e = m
    · rw [if_pos he]
      intro hm
      exact h1 m hm (he ▸ rfl)
    · rw [if_neg he]
      intro hm
      rcases List.mem_cons.mp hm with rfl | hx
      · exact he rfl
      · exact ih h2 hx

theorem oldestEntry_isSome_of_ne_nil {l : List HistEntry} (h : l ≠ []) :
    (oldestEntry l).isSome := by
  cases l with
  | nil => exact absurd rfl h
  | cons e rest => exact oldestEntry_cons_isSome e rest

theorem evictIfNeeded_small {l : List HistEntry} (h : l.length < 5) :
    evictIfNeeded l = l := by
  unfold evictIfNeeded
  rw [if_neg (by omega)]

theorem evictIfNeeded_evict {l : List HistEntry} {m : HistEntry}
    (h : l.length ≥ 5) (hm : oldestEntry l = some m) :
    evictIfNeeded l = removeEntry m l := by
  unfold evictIfNeeded
  rw [if_pos h, hm]

/-- C1: the upsert of `RepositoryHistory.add_or_update` preserves the
at-most-5 invariant; for an owner holding exactly 5 entries, upserting a 6th
distinct repository URL deletes exactly the (unique) entry with the smallest
`last_accessed`, keeps the other 5 (the 4 surviving old entries plus the new
one), and leaves exactly 5 entries; upserting an already-present URL keeps
the entry count and sets that entry's `last_accessed` to the write time. -/
theorem history_upsert (entries : List HistEntry) (newId : Nat)
    (url name : String) (doc hld lld cs : Option String) (now : Nat) :
    (entries.length ≤ 5 →
      (addOrUpdate entries newId url name doc hld lld cs now).length ≤ 5)
    ∧ (entries.length = 5 →
       (∀ e ∈ entries, e.repoUrl ≠ url) →
       (∀ e ∈ entries, e.lastAccessed < now) →
       entries.Pairwise (fun a b => a.lastAccessed ≠ b.lastAccessed) →
       ∃ m ∈ entries,
         (∀ e ∈ entries, m.lastAccessed ≤ e.lastAccessed)
         ∧ (addOrUpdate entries newId url name doc hld lld cs now).length = 5
         ∧ m ∉ addOrUpdate entries newId url name doc hld lld cs now
         ∧ (∀ e ∈ entries, e ≠ m →
              e ∈ addOrUpdate entries newId url name doc hld lld cs now)
         ∧ (∃ n ∈ addOrUpdate entries newId url name doc hld lld cs now,
              n.repoUrl = url ∧ n.repoName = name ∧ n.lastAccessed = now))
    ∧ ((∃ e ∈ entries, e.repoUrl = url) →
       (addOrUpdate entries newId url name doc hld lld cs now).length
           = entries.length
       ∧ ∃ e ∈ addOrUpdate entries newId url name doc hld lld cs now,
           e.repoUrl = url ∧ e.lastAccessed = now) := by
  refine ⟨?_, ?_, ?_⟩
  · -- at-most-5 invariant
    intro hle
    by_cases ha : entries.any (fun e => e.repoUrl = url)
    · unfold addOrUpdate
      rw [if_pos ha, updateExisting_length]
      exact hle
    · unfold addOrUpdate
      rw [if_neg ha]
      by_cases hlen : (entries ++
          [newHistEntry newId url name doc hld lld cs now]).length ≥ 5
      · have hs := oldestEntry_isSome_of_ne_nil
          (l := entries ++ [newHistEntry newId url name doc hld lld cs now])
          (by simp)
        cases hm : oldestEntry (entries ++
            [newHistEntry newId url name doc hld lld cs now]) with
        | none => rw [hm] at hs; simp at hs
        | some m =>
          rw [evictIfNeeded_evict hlen hm]
          have hrl := removeEntry_length (oldestEntry_mem hm)
          simp only [List.length_append, List.length_singleton] at hrl hlen
          omega
      · rw [evictIfNeeded_small (Nat.lt_of_not_le hlen)]
        simp only [List.length_append, List.length_singleton] at hlen ⊢
        omega
  · -- eviction of the unique oldest entry on a 6th distinct insert
    intro hlen hfresh hlt hpw
    have ha : entries.any (fun e => e.repoUrl = url) = false := by
      rw [List.any_eq_false]
      intro x hx
      simpa using hfresh x hx
    have hne : entries ≠ [] := by
      intro h; rw [h] at hlen; simp at hlen
    set newEntry : HistEntry := newHistEntry newId url name doc hld lld cs now
      with hnew
    have hoe : oldestEntry (entries ++ [newEntry]) = oldestEntry entries :=
      oldestEntry_append_singleton hne (fun e he => hlt e he)
    cases hm : oldestEntry entries with
    | none =>
      cases entries with
      | nil => exact absurd rfl hne
      | cons b bs =>
        have h2 := oldestEntry_cons_isSome b bs
        rw [hm] at h2
        simp at h2
    | some m =>
      have hmem := oldestEntry_mem hm
      have hmin := oldestEntry_le hm
      have hmlt : m.lastAccessed < now := hlt m hmem
      have hpw' : (entries ++ [newEntry]).Pairwise
          (fun a b => a.lastAccessed ≠ b.lastAccessed) := by
        rw [List.pairwise_append]
        refine ⟨hpw, List.pairwise_singleton _ _, ?_⟩
        intro a ha' b hb
        rcases List.mem_singleton.mp hb with rfl
        exact Nat.ne_of_lt (hlt a ha')
      have hres : addOrUpdate entries newId url name doc hld lld cs now
          = removeEntry m (entries ++ [newEntry]) := by
        unfold addOrUpdate
        rw [if_neg (by simp [ha]), ← hnew]
        exact evictIfNeeded_evict
          (by simp only [List.length_append, List.length_singleton, hlen]; omega)
          (hoe.trans hm)
      refine ⟨m, hmem, hmin, ?_, ?_, ?_, ?_⟩
      · rw [hres]
        have h1 := removeEntry_length (l := entries ++ [newEntry])
          (List.mem_append_left _ hmem)
        simp only [List.length_append, List.length_singleton, hlen] at h1
        omega
      · rw [hres]
        exact not_mem_removeEntry hpw'
      · intro e he hne'
        rw [hres]
        exact mem_removeEntry (List.mem_append_left _ he) hne'
      · refine ⟨newEntry, ?_, rfl, rfl, rfl⟩
        rw [hres]
        refine mem_removeEntry (List.mem_append_right _ (List.mem_singleton_self _)) ?_
        intro hcontra
        rw [← hcontra] at hmlt
        exact Nat.lt_irrefl _ hmlt
  · -- identity-preserving update of an existing URL
    intro hex
    have ha : entries.any (fun e => e.repoUrl = url) = true := by
      rw [List.any_eq_true]
      rcases hex with ⟨e, he, hurl⟩
      exact ⟨e, he, by simpa using hurl⟩
    unfold addOrUpdate
    rw [if_pos ha]
    exact ⟨updateExisting_length _ _ _ _ _ _ _,
      updateExisting_updated _ _ _ _ _ _ _ hex⟩

/-- Witness for C1: five distinct entries, a 6th distinct URL upserted. -/
theorem history_upsert_witness :
    (([⟨1, "u1", "r1", none, none, none, none, 10, 10⟩,
       ⟨2, "u2", "r2", none, none, none, none, 11, 11⟩,
       ⟨3, "u3", "r3", none, none, none, none, 12, 12⟩,
       ⟨4, "u4", "r4", none, none, none, none, 13, 13⟩,
       ⟨5, "u5", "r5", none, none, none, none, 14, 14⟩] :
          List HistEntry).length = 5)
    ∧ (∃ m ∈ ([⟨1, "u1", "r1", none, none, none, none, 10, 10⟩,
       ⟨2, "u2", "r2", none, none, none, none, 11, 11⟩,
       ⟨3, "u3", "r3", none, none, none, none, 12, 12⟩,
       ⟨4, "u4", "r4", none, none, none, none, 13, 13⟩,
       ⟨5, "u5", "r5", none, none, none, none, 14, 14⟩] : List HistEntry),
         (∀ e ∈ ([⟨1, "u1", "r1", none, none, none, none, 10, 10⟩,
       ⟨2, "u2", "r2", none, none, none, none, 11, 11⟩,
       ⟨3, "u3", "r3", none, none, none, none, 12, 12⟩,
       ⟨4, "u4", "r4", none, none, none, none, 13, 13⟩,
       ⟨5, "u5", "r5", none, none, none, none, 14, 14⟩] : List HistEntry),
             m.lastAccessed ≤ e.lastAccessed)
         ∧ (addOrUpdate [⟨1, "u1", "r1", none, none, none, none, 10, 10⟩,
       ⟨2, "u2", "r2", none, none, none, none, 11, 11⟩,
       ⟨3, "u3", "r3", none, none, none, none, 12, 12⟩,
       ⟨4, "u4", "r4", none, none, none, none, 13, 13⟩,
       ⟨5, "u5", "r5", none, none, none, none, 14, 14⟩]
          6 "u6" "r6" none none none none 20).length = 5
         ∧ m ∉ addOrUpdate [⟨1, "u1", "r1", none, none, none, none, 10, 10⟩,
       ⟨2, "u2", "r2", none, none, none, none, 11, 11⟩,
       ⟨3, "u3", "r3", none, none, none, none, 12, 12⟩,
       ⟨4, "u4", "r4", none, none, none, none, 13, 13⟩,
       ⟨5, "u5", "r5", none, none, none, none, 14, 14⟩]
          6 "u6" "r6" none none none none 20
         ∧ (∀ e ∈ ([⟨1, "u1", "r1", none, none, none, none, 10, 10⟩,
       ⟨2, "u2", "r2", none, none, none, none, 11, 11⟩,
       ⟨3, "u3", "r3", none, none, none, none, 12, 12⟩,
       ⟨4, "u4", "r4", none, none, none, none, 13, 13⟩,
       ⟨5, "u5", "r5", none, none, none, none, 14, 14⟩] : List HistEntry),
              e ≠ m →
              e ∈ addOrUpdate [⟨1, "u1", "r1", none, none, none, none, 10, 10⟩,
       ⟨2, "u2", "r2", none, none, none, none, 11, 11⟩,
       ⟨3, "u3", "r3", none, none, none, none, 12, 12⟩,
       ⟨4, "u4", "r4", none, none, none, none, 13, 13⟩,
       ⟨5, "u5", "r5", none, none, none, none, 14, 14⟩]
          6 "u6" "r6" none none none none 20)
         ∧ (∃ n ∈ addOrUpdate [⟨1, "u1", "r1", none, none, none, none, 10, 10⟩,
       ⟨2, "u2", "r2", none, none, none, none, 11, 11⟩,
       ⟨3, "u3", "r3", none, none, none, none, 12, 12⟩,
       ⟨4, "u4", "r4", none, none, none, none, 13, 13⟩,
       ⟨5, "u5", "r5", none, none, none, none, 14, 14⟩]
          6 "u6" "r6" none none none none 20,
              n.repoUrl = "u6" ∧ n.repoName = "r6" ∧ n.lastAccessed = 20)) :=
  ⟨by decide,
   (history_upsert [⟨1, "u1", "r1", none, none, none, none, 10, 10⟩,
       ⟨2, "u2", "r2", none, none, none, none, 11, 11⟩,
       ⟨3, "u3", "r3", none, none, none, none, 12, 12⟩,
       ⟨4, "u4", "r4", none, none, none, none, 13, 13⟩,
       ⟨5, "u5", "r5", none, none, none, none, 14, 14⟩]
      6 "u6" "r6" none none none none 20).2.1
    (by decide) (by decide) (by decide) (by decide)⟩

/-! ## C7: lifecycle-directive line removal -/

theorem filterLines_eq_filter_map (ls : List (List Char)) :
    filterLines ls = (ls.filter (fun l => !isLifecycleLine l)).map cleanupLine := by
  induction ls with
  | nil => rfl
  | cons l rest ih =>
    unfold filterLines
    cases h : isLifecycleLine l with
    | true => simp [List.filter_cons, h, ih]
    | false => simp [List.filter_cons, h, ih]

/-- C7 counterexample: the line `"activate"` trimmed starts with the
lifecycle keyword `activate` (case-insensitively), yet the sanitizer keeps
it unchanged — the source compares against `"activate "`, keyword plus a
trailing space, so a bare keyword line is not removed. -/
theorem lifecycle_removal_counterexample :
    "activate".toList.isPrefixOf (pyLower (pyStrip "activate".toList)) = true
    ∧ sanitizeMermaid "activate" = "activate"
    ∧ sanitizeMermaid "activate" ≠ "" := by
  exact ⟨by decide, by decide, by decide⟩

/-- C7 (amended): the line-removal step of the sanitizer removes exactly the
lines whose trimmed text starts, case-insensitively, with `"activate "` or
`"deactivate "` (keyword followed by a space); every other line is kept and
only the per-line cleanup (stray-letter removal, right-trim) is applied to
it. -/
theorem lifecycle_removal_semantics (code : String) :
    sanitizeMermaid code =
      (joinLines (((splitLines (applyRenames (collapseBrackets code.toList))).filter
        (fun l => !("activate ".toList.isPrefixOf (pyLower (pyStrip l))
                    || "deactivate ".toList.isPrefixOf (pyLower (pyStrip l))))).map
        cleanupLine)).asString := by
  unfold sanitizeMermaid sanitizeMermaidL
  rw [filterLines_eq_filter_map]
  rfl

/-! ## C5: idempotence of the sanitizer

The sanitizer is not idempotent (two counterexamples below); the amended
claim proves idempotence for inputs without line-terminator characters and
without `'['`.  The development needs a stack of lemmas about the
right-strip and the stray-letter pass. -/

theorem dropWhile_self_idem (p : Char → Bool) (l : List Char) :
    (l.dropWhile p).dropWhile p = l.dropWhile p := by
  cases h : l.dropWhile p with
  | nil => rfl
  | cons c t =>
    have hc : p c = false := by
      have h2 := List.head?_dropWhile_not p l
      rw [h] at h2
      simpa using h2
    simp [List.dropWhile_cons, hc]

theorem pyStripRight_nil : pyStripRight [] = [] := rfl

theorem pyStripRight_idem (l : List Char) :
    pyStripRight (pyStripRight l) = pyStripRight l := by
  unfold pyStripRight
  rw [List.reverse_reverse, dropWhile_self_idem]

theorem pyStripRight_append_ws {v : List Char} (u : List Char)
    (hv : ∀ c ∈ v, isPySpace c = true) :
    pyStripRight (u ++ v) = pyStripRight u := by
  unfold pyStripRight
  rw [List.reverse_append, List.dropWhile_append]
  have h : v.reverse.dropWhile isPySpace = [] :=
    List.dropWhile_eq_nil_iff.mpr (fun x hx => hv x (List.mem_reverse.mp hx))
  rw [h]
  simp

theorem pyStripRight_decomp (l : List Char) :
    l = pyStripRight l ++ (l.reverse.takeWhile isPySpace).reverse
    ∧ ∀ c ∈ (l.reverse.takeWhile isPySpace).reverse, isPySpace c = true := by
  constructor
  · conv_lhs => rw [← List.reverse_reverse l,
      ← List.takeWhile_append_dropWhile (p := isPySpace) (l := l.reverse)]
    rw [List.reverse_append]
    rfl
  · intro c hc
    exact List.mem_takeWhile_imp (List.mem_reverse.mp hc)

theorem pyStripRight_cons_of_not_ws {c : Char} (hc : isPySpace c = false)
    (l : List Char) : pyStripRight (c :: l) = c :: pyStripRight l := by
  unfold pyStripRight
  rw [List.reverse_cons, List.dropWhile_append]
  by_cases h : (l.reverse.dropWhile isPySpace).isEmpty
  · rw [if_pos h]
    rw [List.isEmpty_iff] at h
    rw [h]
    simp [List.dropWhile_cons, hc]
  · rw [if_neg h]
    simp

theorem pyStripRight_append_of_ne {v : List Char} (u : List Char)
    (h : pyStripRight v ≠ []) :
    pyStripRight (u ++ v) = u ++ pyStripRight v := by
  unfold pyStripRight at h ⊢
  rw [List.reverse_append, List.dropWhile_append]
  have h2 : ¬(v.reverse.dropWhile isPySpace).isEmpty := by
    intro hx
    rw [List.isEmpty_iff] at hx
    rw [hx] at h
    exact h rfl
  rw [if_neg h2]
  simp

theorem pyStripRight_all_ws {l : List Char} (h : ∀ c ∈ l, isPySpace c = true) :
    pyStripRight l = [] := by
  have := pyStripRight_append_ws ([] : List Char) (v := l) h
  simpa using this

theorem pyStripLeft_cons_of_not_ws {c : Char} (hc : isPySpace c = false)
    (l : List Char) : pyStripLeft (c :: l) = c :: l := by
  simp [pyStripLeft, List.dropWhile_cons, hc]

theorem pyStripLeft_append_ws {u : List Char} (v : List Char)
    (hu : ∀ c ∈ u, isPySpace c = true) :
    pyStripLeft (u ++ v) = pyStripLeft v := by
  unfold pyStripLeft
  rw [List.dropWhile_append]
  have h : u.dropWhile isPySpace = [] := List.dropWhile_eq_nil_iff.mpr hu
  rw [h]
  simp

/-- `strip` of a list presented as leading whitespace, a non-whitespace
character, and a tail. -/
theorem pyStrip_decomposed {tw : List Char} (htw : ∀ x ∈ tw, isPySpace x = true)
    {c : Char} (hc : isPySpace c = false) (w2 : List Char) :
    pyStrip (tw ++ c :: w2) = c :: pyStripRight w2 := by
  show pyStripRight (pyStripLeft (tw ++ c :: w2)) = _
  rw [pyStripLeft_append_ws _ htw, pyStripLeft_cons_of_not_ws hc,
    pyStripRight_cons_of_not_ws hc]

/-- `strip (rstrip l) = strip l`. -/
theorem pyStrip_stripRight (l : List Char) :
    pyStrip (pyStripRight l) = pyStrip l := by
  cases hw : l.dropWhile isPySpace with
  | nil =>
    have hall : ∀ c ∈ l, isPySpace c = true := List.dropWhile_eq_nil_iff.mp hw
    rw [pyStripRight_all_ws hall]
    show pyStrip [] = pyStripRight (pyStripLeft l)
    show pyStrip [] = pyStripRight (l.dropWhile isPySpace)
    rw [hw]
    rfl
  | cons c w2 =>
    have hc : isPySpace c = false := by
      have h2 := List.head?_dropWhile_not isPySpace l
      rw [hw] at h2
      simpa using h2
    have hdecomp := (List.takeWhile_append_dropWhile (p := isPySpace) (l := l)).symm
    rw [hw] at hdecomp
    have htw : ∀ x ∈ l.takeWhile isPySpace, isPySpace x = true :=
      fun x hx => List.mem_takeWhile_imp hx
    have hsRw : pyStripRight (c :: w2) = c :: pyStripRight w2 :=
      pyStripRight_cons_of_not_ws hc w2
    have hsr : pyStripRight l = l.takeWhile isPySpace ++ (c :: pyStripRight w2) := by
      conv_lhs => rw [hdecomp]
      rw [pyStripRight_append_of_ne _ (by rw [hsRw]; simp), hsRw]
    have h1 : pyStrip l = c :: pyStripRight w2 := by
      conv_lhs => rw [hdecomp]
      exact pyStrip_decomposed htw hc w2
    rw [hsr, pyStrip_decomposed htw hc, pyStripRight_idem, h1]

/-- The lifecycle test ignores trailing whitespace. -/
theorem isLifecycleLine_stripRight (l : List Char) :
    isLifecycleLine (pyStripRight l) = isLifecycleLine l := by
  unfold isLifecycleLine
  rw [show pyStrip (pyStripRight l) = pyStrip l from pyStrip_stripRight l]

/-! Case-selection lemmas for `matchStray`. -/

theorem matchStray_of_no_ws {rest : List Char}
    (h : (rest.takeWhile isPySpace).isEmpty = true) : matchStray rest = none := by
  unfold matchStray
  rw [if_pos h]

theorem matchStray_of_all_ws {rest : List Char}
    (h : rest.dropWhile isPySpace = []) : matchStray rest = none := by
  unfold matchStray
  by_cases h1 : (rest.takeWhile isPySpace).isEmpty
  · rw [if_pos h1]
  · simp [h1, h]

theorem matchStray_of_not_alpha {rest : List Char} {c : Char} {rest2 : List Char}
    (h : rest.dropWhile isPySpace = c :: rest2) (hc : c.isAlpha = false) :
    matchStray rest = none := by
  unfold matchStray
  by_cases h1 : (rest.takeWhile isPySpace).isEmpty
  · rw [if_pos h1]
  · simp [h1, h, hc]

theorem matchStray_of_no_ws2 {rest : List Char} {c : Char} {rest2 : List Char}
    (h : rest.dropWhile isPySpace = c :: rest2) (hc : c.isAlpha = true)
    (h2 : (rest2.takeWhile isPySpace).isEmpty = true) :
    matchStray rest = none := by
  unfold matchStray
  by_cases h1 : (rest.takeWhile isPySpace).isEmpty
  · rw [if_pos h1]
  · simp [h1, h, hc, h2]

theorem matchStray_of_all_ws2 {rest : List Char} {c : Char} {rest2 : List Char}
    (h : rest.dropWhile isPySpace = c :: rest2) (hc : c.isAlpha = true)
    (h2 : rest2.dropWhile isPySpace = []) :
    matchStray rest = none := by
  unfold matchStray
  by_cases h1 : (rest.takeWhile isPySpace).isEmpty
  · rw [if_pos h1]
  · by_cases h3 : (rest2.takeWhile isPySpace).isEmpty
    · simp [h1, h, hc, h3]
    · simp [h1, h, hc, h3, h2]

theorem matchStray_of_not_arrow {rest : List Char} {c : Char} {rest2 : List Char}
    {d : Char} {rest3 : List Char}
    (h : rest.dropWhile isPySpace = c :: rest2) (hc : c.isAlpha = true)
    (h2 : rest2.dropWhile isPySpace = d :: rest3)
    (hd : (d = '-' || d = '<') = false) :
    matchStray rest = none := by
  unfold matchStray
  by_cases h1 : (rest.takeWhile isPySpace).isEmpty
  · rw [if_pos h1]
  · by_cases h3 : (rest2.takeWhile isPySpace).isEmpty
    · simp [h1, h, hc, h3]
    · simp only [Bool.or_eq_false_iff, decide_eq_false_iff_not] at hd
      simp [h1, h, hc, h3, h2, hd.1, hd.2]

theorem matchStray_of_arrow {rest : List Char} {c : Char} {rest2 : List Char}
    {d : Char} {rest3 : List Char}
    (h1 : (rest.takeWhile isPySpace).isEmpty = false)
    (h : rest.dropWhile isPySpace = c :: rest2) (hc : c.isAlpha = true)
    (h3 : (rest2.takeWhile isPySpace).isEmpty = false)
    (h2 : rest2.dropWhile isPySpace = d :: rest3)
    (hd : d = '-' ∨ d = '<') :
    matchStray rest = some (d :: rest3) := by
  unfold matchStray
  rcases hd with hd | hd <;> subst hd <;> simp [h1, h, hc, h3, h2]

/-- Inversion: a successful stray match starts at an arrow character and is
a sublist of the scanned suffix. -/
theorem matchStray_some_inv {rest r2 : List Char}
    (h : matchStray rest = some r2) :
    (∃ d r3, r2 = d :: r3 ∧ (d = '-' ∨ d = '<'))
    ∧ r2.Sublist rest ∧ r2.length < rest.length := by
  unfold matchStray at h
  by_cases h1 : (rest.takeWhile isPySpace).isEmpty
  · rw [if_pos h1] at h; exact absurd h (by simp)
  · rw [if_neg h1] at h
    cases hdw : rest.dropWhile isPySpace with
    | nil => rw [hdw] at h; simp at h
    | cons c rest2 =>
      rw [hdw] at h
      by_cases hc : c.isAlpha
      · rw [if_pos (by simp [hc])] at h
        by_cases h3 : (rest2.takeWhile isPySpace).isEmpty
        · rw [show (c :: rest2 : List Char).tail = rest2 from rfl, if_pos h3] at h
          exact absurd h (by simp)
        · rw [show (c :: rest2 : List Char).tail = rest2 from rfl, if_neg h3] at h
          cases hdw2 : rest2.dropWhile isPySpace with
          | nil => rw [hdw2] at h; simp at h
          | cons d rest3 =>
            rw [hdw2] at h
            by_cases hd : ((d :: rest3 : List Char).head? = some '-'
                || (d :: rest3 : List Char).head? = some '<')
            · rw [if_pos hd] at h
              have hr2 : r2 = d :: rest3 := by simpa using h.symm
              subst hr2
              have hsub1 : (d :: rest3).Sublist rest2 := by
                rw [← hdw2]; exact List.dropWhile_sublist _
              have hsub2 : rest2.Sublist (c :: rest2) :=
                List.sublist_cons_self _ _
              have hsub3 : (c :: rest2).Sublist rest := by
                rw [← hdw]; exact List.dropWhile_sublist _
              have hsub : (d :: rest3).Sublist rest :=
                (hsub1.trans hsub2).trans hsub3
              have hdd : d = '-' ∨ d = '<' := by
                simpa using hd
              refine ⟨⟨d, rest3, rfl, hdd⟩, hsub, ?_⟩
              have hl1 := hsub1.length_le
              have hl2 := hsub3.length_le
              simp only [List.length_cons] at hl1 hl2 ⊢
              omega
            · rw [if_neg hd] at h; exact absurd h (by simp)
      · rw [if_neg (by simp [hc])] at h; exact absurd h (by simp)

/-! Fuel irrelevance and unfolding equations for `letterSub`. -/

theorem letterSubFuel_congr :
    ∀ f g l, l.length ≤ f → l.length ≤ g → @letterSubFuel f l = letterSubFuel g l := by
  intro f
  induction f with
  | zero =>
    intro g l hf _
    have hl : l = [] := List.length_eq_zero.mp (Nat.le_zero.mp hf)
    subst hl
    cases g <;> rfl
  | succ f ih =>
    intro g l hf hg
    cases l with
    | nil => cases g <;> rfl
    | cons c rest =>
      cases g with
      | zero => simp at hg
      | succ g' =>
        show letterSubFuel (f + 1) (c :: rest) = letterSubFuel (g' + 1) (c :: rest)
        unfold letterSubFuel
        simp only [List.length_cons, Nat.add_le_add_iff_right] at hf hg
        by_cases hc : c = ']'
        · rw [if_pos hc, if_pos hc]
          cases hm : matchStray rest with
          | some r2 =>
            have hlt := (matchStray_some_inv hm).2.2
            show ']' :: ' ' :: letterSubFuel f r2 = ']' :: ' ' :: letterSubFuel g' r2
            rw [ih g' r2 (by omega) (by omega)]
          | none =>
            show ']' :: letterSubFuel f rest = ']' :: letterSubFuel g' rest
            rw [ih g' rest hf hg]
        · rw [if_neg hc, if_neg hc, ih g' rest hf hg]

theorem letterSub_nil : letterSub [] = [] := rfl

theorem letterSub_cons_ne {c : Char} (hc : c ≠ ']') (rest : List Char) :
    letterSub (c :: rest) = c :: letterSub rest := by
  show letterSubFuel (rest.length + 1) (c :: rest) = _
  unfold letterSubFuel
  rw [if_neg hc]
  rfl

theorem letterSub_rb_none {rest : List Char} (h : matchStray rest = none) :
    letterSub (']' :: rest) = ']' :: letterSub rest := by
  show letterSubFuel (rest.length + 1) (']' :: rest) = _
  unfold letterSubFuel
  rw [if_pos rfl, h]
  rfl

theorem letterSub_rb_some {rest r2 : List Char} (h : matchStray rest = some r2) :
    letterSub (']' :: rest) = ']' :: ' ' :: letterSub r2 := by
  show letterSubFuel (rest.length + 1) (']' :: rest) = _
  unfold letterSubFuel
  rw [if_pos rfl, h]
  show ']' :: ' ' :: letterSubFuel rest.length r2 = _
  have hlt := (matchStray_some_inv h).2.2
  rw [letterSubFuel_congr rest.length r2.length r2 (by omega) (le_refl _)]
  rfl

/-! Generic `takeWhile`/`dropWhile` append facts. -/

theorem dropWhile_append_of_nil {p : Char → Bool} {u : List Char}
    (h : u.dropWhile p = []) (v : List Char) :
    (u ++ v).dropWhile p = v.dropWhile p := by
  rw [List.dropWhile_append, if_pos (by simp [h])]

theorem dropWhile_append_of_cons {p : Char → Bool} {u : List Char} {c : Char}
    {u2 : List Char} (h : u.dropWhile p = c :: u2) (v : List Char) :
    (u ++ v).dropWhile p = c :: (u2 ++ v) := by
  rw [List.dropWhile_append, if_neg (by simp [h]), h]
  rfl

theorem takeWhile_append_head_stop {p : Char → Bool} :
    ∀ {w : List Char}, (∀ x ∈ w, p x = true) → ∀ {c : Char}, p c = false →
    ∀ (X : List Char), (w ++ c :: X).takeWhile p = w := by
  intro w
  induction w with
  | nil =>
    intro _ c hc X
    simp [List.takeWhile_cons, hc]
  | cons a ta ih =>
    intro hw c hc X
    have ha : p a = true := hw a (List.mem_cons_self _ _)
    rw [List.cons_append, List.takeWhile_cons, ha]
    simp only
    rw [ih (fun x hx => hw x (List.mem_cons_of_mem _ hx)) hc X]
    simp

theorem takeWhile_append_of_cons {p : Char → Bool} {u : List Char} {c : Char}
    {u2 : List Char} (h : u.dropWhile p = c :: u2) (v : List Char) :
    (u ++ v).takeWhile p = u.takeWhile p := by
  have hdec := (List.takeWhile_append_dropWhile (p := p) (l := u)).symm
  rw [h] at hdec
  have hc : p c = false := by
    have h2 := List.head?_dropWhile_not p u
    rw [h] at h2
    simpa using h2
  have htw : ∀ x ∈ u.takeWhile p, p x = true := fun x hx => List.mem_takeWhile_imp hx
  conv_lhs => rw [hdec]
  rw [List.append_assoc, List.cons_append,
    takeWhile_append_head_stop htw hc (u2 ++ v)]

/-- `head?` of a non-empty `dropWhile` fails the predicate. -/
theorem head_of_dropWhile_cons {p : Char → Bool} {u : List Char} {c : Char}
    {u2 : List Char} (h : u.dropWhile p = c :: u2) : p c = false := by
  have h2 := List.head?_dropWhile_not p u
  rw [h] at h2
  simpa using h2

/-- Appending pure whitespace on the right shifts a stray-letter match by
that suffix and creates or destroys none. -/
theorem matchStray_append_ws {v : List Char}
    (hv : ∀ c ∈ v, isPySpace c = true) (u : List Char) :
    matchStray (u ++ v) = (matchStray u).map (· ++ v) := by
  have hvd : v.dropWhile isPySpace = [] := List.dropWhile_eq_nil_iff.mpr hv
  cases hwu : u.dropWhile isPySpace with
  | nil =>
    have huv : (u ++ v).dropWhile isPySpace = [] := by
      rw [dropWhile_append_of_nil hwu, hvd]
    rw [matchStray_of_all_ws huv, matchStray_of_all_ws hwu]
    rfl
  | cons c u2 =>
    have huv : (u ++ v).dropWhile isPySpace = c :: (u2 ++ v) :=
      dropWhile_append_of_cons hwu v
    have htw : ((u ++ v).takeWhile isPySpace) = u.takeWhile isPySpace :=
      takeWhile_append_of_cons hwu v
    by_cases h1 : (u.takeWhile isPySpace).isEmpty
    · rw [matchStray_of_no_ws (by rw [htw]; exact h1), matchStray_of_no_ws h1]
      rfl
    · by_cases hca : c.isAlpha
      · cases hwu2 : u2.dropWhile isPySpace with
        | nil =>
          have huv2 : (u2 ++ v).dropWhile isPySpace = [] := by
            rw [dropWhile_append_of_nil hwu2, hvd]
          rw [matchStray_of_all_ws2 huv hca huv2,
            matchStray_of_all_ws2 hwu hca hwu2]
          rfl
        | cons d u3 =>
          have huv2 : (u2 ++ v).dropWhile isPySpace = d :: (u3 ++ v) :=
            dropWhile_append_of_cons hwu2 v
          have htw2 : ((u2 ++ v).takeWhile isPySpace) = u2.takeWhile isPySpace :=
            takeWhile_append_of_cons hwu2 v
          by_cases h3 : (u2.takeWhile isPySpace).isEmpty
          · rw [matchStray_of_no_ws2 huv hca (by rw [htw2]; exact h3),
              matchStray_of_no_ws2 hwu hca h3]
            rfl
          · have h1' : (u.takeWhile isPySpace).isEmpty = false := by
              simp only [Bool.not_eq_true] at h1; exact h1
            have h3' : (u2.takeWhile isPySpace).isEmpty = false := by
              simp only [Bool.not_eq_true] at h3; exact h3
            by_cases hd : d = '-' ∨ d = '<'
            · rw [matchStray_of_arrow (by rw [htw]; exact h1') huv hca
                (by rw [htw2]; exact h3') huv2 hd,
                matchStray_of_arrow h1' hwu hca h3' hwu2 hd]
              rfl
            · have hd' : (d = '-' || d = '<') = false := by
                simp only [Bool.or_eq_false_iff, decide_eq_false_iff_not]
                exact ⟨fun h => hd (Or.inl h), fun h => hd (Or.inr h)⟩
              rw [matchStray_of_not_arrow huv hca huv2 hd',
                matchStray_of_not_arrow hwu hca hwu2 hd']
              rfl
      · rw [matchStray_of_not_alpha huv (by simpa using hca),
          matchStray_of_not_alpha hwu (by simpa using hca)]
        rfl

/-- The scanner copies a `']'`-free prefix verbatim. -/
theorem letterSub_copy {p : List Char} (hp : ∀ c ∈ p, c ≠ ']') :
    ∀ (r : List Char), letterSub (p ++ r) = p ++ letterSub r := by
  induction p with
  | nil => intro r; rfl
  | cons c p' ih =>
    intro r
    rw [List.cons_append,
      letterSub_cons_ne (hp c (List.mem_cons_self _ _)) (p' ++ r),
      ih (fun x hx => hp x (List.mem_cons_of_mem _ hx)) r]
    rfl

/-- A `']'`-free list is fixed by the stray-letter pass. -/
theorem letterSub_all_ne {l : List Char} (hp : ∀ c ∈ l, c ≠ ']') :
    letterSub l = l := by
  have h := letterSub_copy hp []
  simpa [letterSub_nil] using h

theorem tw_ws_ne_rb (l : List Char) :
    ∀ x ∈ l.takeWhile isPySpace, x ≠ ']' := by
  intro x hx he
  subst he
  exact absurd (List.mem_takeWhile_imp hx) (by decide)

theorem all_ws_ne_rb {l : List Char} (h : ∀ x ∈ l, isPySpace x = true) :
    ∀ x ∈ l, x ≠ ']' := by
  intro x hx he
  subst he
  exact absurd (h _ hx) (by decide)

theorem dropWhile_tw_append {l X : List Char} {c : Char}
    (hc : isPySpace c = false) :
    ((l.takeWhile isPySpace) ++ c :: X).dropWhile isPySpace = c :: X := by
  rw [dropWhile_append_of_nil
    (List.dropWhile_eq_nil_iff.mpr (fun x hx => List.mem_takeWhile_imp hx))]
  simp [List.dropWhile_cons, hc]

theorem takeWhile_tw_append {l X : List Char} {c : Char}
    (hc : isPySpace c = false) :
    ((l.takeWhile isPySpace) ++ c :: X).takeWhile isPySpace
      = l.takeWhile isPySpace :=
  takeWhile_append_head_stop (fun _ hx => List.mem_takeWhile_imp hx) hc X

/-- The head of `letterSub` applied to a list headed by a non-`']'`
character, or by `']'`, is that same character. -/
theorem letterSub_head_cases (c : Char) (w : List Char) :
    ∃ X, letterSub (c :: w) = c :: X := by
  by_cases hc : c = ']'
  · subst hc
    cases hm : matchStray w with
    | some r2 => exact ⟨_, letterSub_rb_some hm⟩
    | none => exact ⟨_, letterSub_rb_none hm⟩
  · exact ⟨_, letterSub_cons_ne hc w⟩

/-- If a line has no stray-letter match, its `letterSub` image (which is the
line itself on the matched-free part) has none either. -/
theorem matchStray_letterSub_none {l : List Char} (h : matchStray l = none) :
    matchStray (letterSub l) = none := by
  have hdec := (List.takeWhile_append_dropWhile (p := isPySpace) (l := l)).symm
  cases hw : l.dropWhile isPySpace with
  | nil =>
    have hall : ∀ c ∈ l, isPySpace c = true := List.dropWhile_eq_nil_iff.mp hw
    rw [letterSub_all_ne (all_ws_ne_rb hall)]
    exact h
  | cons c w2 =>
    rw [hw] at hdec
    have hcws : isPySpace c = false := head_of_dropWhile_cons hw
    have hls : letterSub l = l.takeWhile isPySpace ++ letterSub (c :: w2) := by
      conv_lhs => rw [hdec]
      exact letterSub_copy (tw_ws_ne_rb l) _
    by_cases hcr : c = ']'
    · subst hcr
      rcases letterSub_head_cases ']' w2 with ⟨X, hX⟩
      rw [hls, hX]
      exact matchStray_of_not_alpha (dropWhile_tw_append (by decide)) (by decide)
    · have hls2 : letterSub (c :: w2) = c :: letterSub w2 := letterSub_cons_ne hcr w2
      by_cases hca : c.isAlpha
      · by_cases h1 : (l.takeWhile isPySpace).isEmpty
        · apply matchStray_of_no_ws
          rw [hls, hls2, List.isEmpty_iff.mp h1, List.nil_append]
          simp [List.takeWhile_cons, hcws]
        · have h1' : (l.takeWhile isPySpace).isEmpty = false := by
            simp only [Bool.not_eq_true] at h1; exact h1
          have hdecw2 :=
            (List.takeWhile_append_dropWhile (p := isPySpace) (l := w2)).symm
          cases hw2 : w2.dropWhile isPySpace with
          | nil =>
            have hallw2 : ∀ x ∈ w2, isPySpace x = true :=
              List.dropWhile_eq_nil_iff.mp hw2
            rw [hls, hls2, letterSub_all_ne (all_ws_ne_rb hallw2), ← hdec]
            exact h
          | cons d w3 =>
            rw [hw2] at hdecw2
            have hdws : isPySpace d = false := head_of_dropWhile_cons hw2
            have hlsw2 : letterSub w2
                = w2.takeWhile isPySpace ++ letterSub (d :: w3) := by
              conv_lhs => rw [hdecw2]
              exact letterSub_copy (tw_ws_ne_rb w2) _
            rcases letterSub_head_cases d w3 with ⟨Y, hY⟩
            have hdwsY : ((l.takeWhile isPySpace) ++ c ::
                (w2.takeWhile isPySpace ++ d :: Y)).dropWhile isPySpace
                = c :: (w2.takeWhile isPySpace ++ d :: Y) :=
              dropWhile_tw_append hcws
            by_cases h3 : (w2.takeWhile isPySpace).isEmpty
            · refine @matchStray_of_no_ws2 _ c (w2.takeWhile isPySpace ++ d :: Y) ?_ hca ?_
              · rw [hls, hls2, hlsw2, hY]
                exact hdwsY
              · rw [List.isEmpty_iff.mp h3, List.nil_append]
                simp [List.takeWhile_cons, hdws]
            · have h3' : (w2.takeWhile isPySpace).isEmpty = false := by
                simp only [Bool.not_eq_true] at h3; exact h3
              have hdarrow : (d = '-' || d = '<') = false := by
                by_cases harr : d = '-' ∨ d = '<'
                · exact absurd (matchStray_of_arrow h1' hw hca h3' hw2 harr)
                    (by rw [h]; simp)
                · simp only [Bool.or_eq_false_iff, decide_eq_false_iff_not]
                  exact ⟨fun hx => harr (Or.inl hx), fun hx => harr (Or.inr hx)⟩
              refine @matchStray_of_not_arrow _ c (w2.takeWhile isPySpace ++ d :: Y) d Y ?_ hca ?_ hdarrow
              · rw [hls, hls2, hlsw2, hY]
                exact hdwsY
              · exact dropWhile_tw_append hdws
      · rw [hls, hls2]
        exact matchStray_of_not_alpha (dropWhile_tw_append hcws)
          (by simpa using hca)

/-- Every character emitted by the stray-letter pass is an input character,
a `']'`, or a space. -/
theorem letterSub_mem :
    ∀ (n : Nat) (l : List Char), l.length ≤ n →
    ∀ c ∈ letterSub l, c ∈ l ∨ c = ']' ∨ c = ' ' := by
  intro n
  induction n with
  | zero =>
    intro l hl
    have : l = [] := List.length_eq_zero.mp (Nat.le_zero.mp hl)
    subst this
    intro c hc
    simp [letterSub_nil] at hc
  | succ n ih =>
    intro l hl c hc
    cases l with
    | nil => simp [letterSub_nil] at hc
    | cons a rest =>
      simp only [List.length_cons, Nat.add_le_add_iff_right] at hl
      by_cases ha : a = ']'
      · subst ha
        cases hm : matchStray rest with
        | some r2 =>
          rw [letterSub_rb_some hm] at hc
          rcases (matchStray_some_inv hm) with ⟨_, hsub, hlt⟩
          rcases List.mem_cons.mp hc with rfl | hc2
          · exact Or.inr (Or.inl rfl)
          · rcases List.mem_cons.mp hc2 with rfl | hc3
            · exact Or.inr (Or.inr rfl)
            · rcases ih r2 (by omega) c hc3 with h | h
              · exact Or.inl (List.mem_cons_of_mem _ (hsub.mem h))
              · exact Or.inr h
        | none =>
          rw [letterSub_rb_none hm] at hc
          rcases List.mem_cons.mp hc with rfl | hc2
          · exact Or.inr (Or.inl rfl)
          · rcases ih rest hl c hc2 with h | h
            · exact Or.inl (List.mem_cons_of_mem _ h)
            · exact Or.inr h
      · rw [letterSub_cons_ne ha rest] at hc
        rcases List.mem_cons.mp hc with rfl | hc2
        · exact Or.inl (List.mem_cons_self _ _)
        · rcases ih rest hl c hc2 with h | h
          · exact Or.inl (List.mem_cons_of_mem _ h)
          · exact Or.inr h

theorem letterSub_append_ws_aux {v : List Char}
    (hv : ∀ c ∈ v, isPySpace c = true) :
    ∀ (n : Nat) (u : List Char), u.length ≤ n →
      letterSub (u ++ v) = letterSub u ++ v := by
  intro n
  induction n with
  | zero =>
    intro u hu
    have h0 : u = [] := List.length_eq_zero.mp (Nat.le_zero.mp hu)
    subst h0
    simp [letterSub_nil, letterSub_all_ne (all_ws_ne_rb hv)]
  | succ n ih =>
    intro u hu
    cases u with
    | nil => simp [letterSub_nil, letterSub_all_ne (all_ws_ne_rb hv)]
    | cons c u' =>
      simp only [List.length_cons, Nat.add_le_add_iff_right] at hu
      by_cases hc : c = ']'
      · subst hc
        cases hm : matchStray u' with
        | some r =>
          have hmv : matchStray (u' ++ v) = some (r ++ v) := by
            rw [matchStray_append_ws hv u', hm]
            rfl
          have hlen := (matchStray_some_inv hm).2.2
          rw [List.cons_append, letterSub_rb_some hmv, letterSub_rb_some hm,
            ih r (by omega)]
          rfl
        | none =>
          have hmv : matchStray (u' ++ v) = none := by
            rw [matchStray_append_ws hv u', hm]
            rfl
          rw [List.cons_append, letterSub_rb_none hmv, letterSub_rb_none hm,
            ih u' hu]
          rfl
      · rw [List.cons_append, letterSub_cons_ne hc, letterSub_cons_ne hc,
          ih u' hu]
        rfl

/-- Appending trailing whitespace commutes with the stray-letter pass. -/
theorem letterSub_append_ws {v : List Char}
    (hv : ∀ c ∈ v, isPySpace c = true) (u : List Char) :
    letterSub (u ++ v) = letterSub u ++ v :=
  letterSub_append_ws_aux hv u.length u (le_refl _)

theorem letterSub_idem_aux :
    ∀ (n : Nat) (l : List Char), l.length ≤ n →
      letterSub (letterSub l) = letterSub l := by
  intro n
  induction n with
  | zero =>
    intro l hl
    have h0 : l = [] := List.length_eq_zero.mp (Nat.le_zero.mp hl)
    subst h0
    rfl
  | succ n ih =>
    intro l hl
    cases l with
    | nil => rfl
    | cons c rest =>
      simp only [List.length_cons, Nat.add_le_add_iff_right] at hl
      by_cases hc : c = ']'
      · subst hc
        cases hm : matchStray rest with
        | some r2 =>
          rw [letterSub_rb_some hm]
          rcases (matchStray_some_inv hm) with ⟨⟨d, r3, hr2, hd⟩, _, hlt⟩
          have hd_ne_rb : d ≠ ']' := by rcases hd with rfl | rfl <;> decide
          have hdws : isPySpace d = false := by rcases hd with rfl | rfl <;> decide
          have hlsr2 : letterSub r2 = d :: letterSub r3 := by
            rw [hr2]; exact letterSub_cons_ne hd_ne_rb r3
          have hnone : matchStray (' ' :: letterSub r2) = none := by
            refine @matchStray_of_not_alpha _ d (letterSub r3) ?_ ?_
            · rw [hlsr2]
              rw [List.dropWhile_cons, if_pos (by decide), List.dropWhile_cons,
                if_neg (by simp [hdws])]
            · rcases hd with rfl | rfl <;> decide
          rw [letterSub_rb_none hnone,
            letterSub_cons_ne (by decide : (' ' : Char) ≠ ']') (letterSub r2),
            ih r2 (by omega)]
        | none =>
          rw [letterSub_rb_none hm,
            letterSub_rb_none (matchStray_letterSub_none hm), ih rest hl]
      · rw [letterSub_cons_ne hc, letterSub_cons_ne hc, ih rest hl]

/-- The stray-letter pass is idempotent. -/
theorem letterSub_idem (l : List Char) :
    letterSub (letterSub l) = letterSub l :=
  letterSub_idem_aux l.length l (le_refl _)

/-- The per-line cleanup (stray-letter pass then right-strip) is
idempotent. -/
theorem cleanupLine_idem (l : List Char) :
    cleanupLine (cleanupLine l) = cleanupLine l := by
  unfold cleanupLine
  obtain ⟨hdecomp, hws⟩ := pyStripRight_decomp (letterSub l)
  have h1 : letterSub (pyStripRight (letterSub l)
      ++ ((letterSub l).reverse.takeWhile isPySpace).reverse)
      = letterSub (pyStripRight (letterSub l))
          ++ ((letterSub l).reverse.takeWhile isPySpace).reverse :=
    letterSub_append_ws hws _
  rw [← hdecomp, letterSub_idem l] at h1
  have h2 : letterSub (pyStripRight (letterSub l))
      = pyStripRight (letterSub l) :=
    (List.append_cancel_right (hdecomp.symm.trans h1)).symm
  rw [h2, pyStripRight_idem]

/-! The lifecycle-line test only inspects the text before the first `']'`
of a line, so the stray-letter pass (which copies that region verbatim)
preserves it. -/

theorem isPrefixOf_append_rb :
    ∀ (kw : List Char), ']' ∉ kw → ∀ (x y z : List Char),
      kw.isPrefixOf (x ++ ']' :: y) = kw.isPrefixOf (x ++ ']' :: z) := by
  intro kw
  induction kw with
  | nil => intro _ x y z; simp [List.isPrefixOf]
  | cons k kr ih =>
    intro hkw x y z
    cases x with
    | nil =>
      have hk : (k == ']') = false := by
        simp only [beq_eq_false_iff_ne, ne_eq]
        intro he
        exact hkw (he ▸ List.mem_cons_self _ _)
      simp [List.isPrefixOf, hk]
    | cons a xr =>
      simp only [List.cons_append, List.isPrefixOf]
      congr 1
      exact ih (fun hm => hkw (List.mem_cons_of_mem _ hm)) xr y z

theorem pyLower_append (a b : List Char) :
    pyLower (a ++ b) = pyLower a ++ pyLower b := List.map_append _ a b

theorem pyLower_cons (c : Char) (t : List Char) :
    pyLower (c :: t) = c.toLower :: pyLower t := rfl

theorem pyStripRight_append_rb (u v : List Char) :
    pyStripRight (u ++ ']' :: v) = u ++ ']' :: pyStripRight v := by
  have hc : pyStripRight (']' :: v) = ']' :: pyStripRight v :=
    pyStripRight_cons_of_not_ws (by decide) v
  rw [pyStripRight_append_of_ne u (by rw [hc]; simp), hc]

/-- The lifecycle test does not depend on anything after the first `']'`. -/
theorem isLifecycleLine_blind_after_rb (A B C : List Char) :
    isLifecycleLine (A ++ ']' :: B) = isLifecycleLine (A ++ ']' :: C) := by
  unfold isLifecycleLine
  cases hA : A.dropWhile isPySpace with
  | nil =>
    have hstrip : ∀ X : List Char,
        pyStrip (A ++ ']' :: X) = ']' :: pyStripRight X := by
      intro X
      show pyStripRight (pyStripLeft (A ++ ']' :: X)) = _
      unfold pyStripLeft
      rw [dropWhile_append_of_nil hA, List.dropWhile_cons,
        if_neg (by decide), pyStripRight_cons_of_not_ws (by decide)]
    rw [hstrip B, hstrip C, pyLower_cons, pyLower_cons]
    have hkw1 : ∀ X : List Char,
        "activate ".toList.isPrefixOf ((']' : Char).toLower :: X) = false := by
      intro X
      simp [List.isPrefixOf]
    have hkw2 : ∀ X : List Char,
        "deactivate ".toList.isPrefixOf ((']' : Char).toLower :: X) = false := by
      intro X
      simp [List.isPrefixOf]
    rw [hkw1, hkw1, hkw2, hkw2]
  | cons a A2 =>
    have hstrip : ∀ X : List Char,
        pyStrip (A ++ ']' :: X) = (a :: A2) ++ ']' :: pyStripRight X := by
      intro X
      show pyStripRight (pyStripLeft (A ++ ']' :: X)) = _
      unfold pyStripLeft
      rw [dropWhile_append_of_cons hA, show a :: (A2 ++ ']' :: X)
            = (a :: A2) ++ ']' :: X from rfl,
        pyStripRight_append_rb]
    have hform : ∀ X : List Char,
        pyLower (pyStrip (A ++ ']' :: X))
          = (Char.toLower a :: pyLower A2) ++ ']' :: pyLower (pyStripRight X) := by
      intro X
      rw [hstrip X]
      show pyLower ((a :: A2) ++ ']' :: pyStripRight X) = _
      rw [pyLower_append, pyLower_cons, pyLower_cons,
        show Char.toLower ']' = ']' from by decide]
    rw [hform B, hform C,
      isPrefixOf_append_rb "activate ".toList (by decide)
        (Char.toLower a :: pyLower A2) (pyLower (pyStripRight B))
        (pyLower (pyStripRight C)),
      isPrefixOf_append_rb "deactivate ".toList (by decide)
        (Char.toLower a :: pyLower A2) (pyLower (pyStripRight B))
        (pyLower (pyStripRight C))]

theorem letterSub_takeWhile_rb :
    ∀ (n : Nat) (l : List Char), l.length ≤ n →
      (letterSub l).takeWhile (fun c => c != ']')
        = l.takeWhile (fun c => c != ']') := by
  intro n
  induction n with
  | zero =>
    intro l hl
    have h0 : l = [] := List.length_eq_zero.mp (Nat.le_zero.mp hl)
    subst h0
    rfl
  | succ n ih =>
    intro l hl
    cases l with
    | nil => rfl
    | cons c rest =>
      simp only [List.length_cons, Nat.add_le_add_iff_right] at hl
      by_cases hc : c = ']'
      · subst hc
        rcases letterSub_head_cases ']' rest with ⟨X, hX⟩
        rw [hX]
        simp [List.takeWhile_cons]
      · rw [letterSub_cons_ne hc rest]
        have hcb : (c != ']') = true := by simpa using hc
        rw [List.takeWhile_cons, List.takeWhile_cons, hcb]
        simp only [if_true]
        rw [ih rest hl]

theorem rb_mem_letterSub :
    ∀ (n : Nat) (l : List Char), l.length ≤ n →
      (']' ∈ letterSub l ↔ ']' ∈ l) := by
  intro n
  induction n with
  | zero =>
    intro l hl
    have h0 : l = [] := List.length_eq_zero.mp (Nat.le_zero.mp hl)
    subst h0
    rfl
  | succ n ih =>
    intro l hl
    cases l with
    | nil => rfl
    | cons c rest =>
      simp only [List.length_cons, Nat.add_le_add_iff_right] at hl
      by_cases hc : c = ']'
      · subst hc
        rcases letterSub_head_cases ']' rest with ⟨X, hX⟩
        rw [hX]
        simp
      · rw [letterSub_cons_ne hc rest]
        simp only [List.mem_cons]
        constructor
        · rintro (h | h)
          · exact Or.inl h
          · exact Or.inr ((ih rest hl).mp h)
        · rintro (h | h)
          · exact Or.inl h
          · exact Or.inr ((ih rest hl).mpr h)

theorem decomp_at_rb {l : List Char} (h : ']' ∈ l) :
    l = l.takeWhile (fun c => c != ']')
      ++ ']' :: (l.dropWhile (fun c => c != ']')).tail := by
  cases hd : l.dropWhile (fun c => c != ']') with
  | nil =>
    have h2 := List.dropWhile_eq_nil_iff.mp hd _ h
    simp at h2
  | cons b bs =>
    have hb : (b != ']') = false :=
      head_of_dropWhile_cons (p := fun c => c != ']') hd
    have hb' : b = ']' := by simpa using hb
    subst hb'
    conv_lhs => rw [← List.takeWhile_append_dropWhile
      (p := fun c => c != ']') (l := l), hd]
    rfl

/-- The stray-letter pass preserves the lifecycle-line test. -/
theorem isLifecycleLine_letterSub (l : List Char) :
    isLifecycleLine (letterSub l) = isLifecycleLine l := by
  by_cases h : ']' ∈ l
  · have h2 : ']' ∈ letterSub l :=
      (rb_mem_letterSub l.length l (le_refl _)).mpr h
    have e1 := decomp_at_rb h
    have e2 := decomp_at_rb h2
    have etw := letterSub_takeWhile_rb l.length l (le_refl _)
    calc isLifecycleLine (letterSub l)
        = isLifecycleLine (l.takeWhile (fun c => c != ']')
            ++ ']' :: ((letterSub l).dropWhile (fun c => c != ']')).tail) := by
          conv_lhs => rw [e2, etw]
      _ = isLifecycleLine (l.takeWhile (fun c => c != ']')
            ++ ']' :: (l.dropWhile (fun c => c != ']')).tail) :=
          isLifecycleLine_blind_after_rb _ _ _
      _ = isLifecycleLine l := by conv_rhs => rw [e1]
  · rw [letterSub_all_ne (fun c hc he => h (he ▸ hc))]

/-- The per-line cleanup preserves the lifecycle-line test. -/
theorem isLifecycleLine_cleanupLine (l : List Char) :
    isLifecycleLine (cleanupLine l) = isLifecycleLine l := by
  unfold cleanupLine
  rw [isLifecycleLine_stripRight, isLifecycleLine_letterSub]

/-! Phases 1 and 2 are identities on bracket-free input, and `splitlines`
is trivial on input without line terminators. -/

theorem collapseBracketsFuel_no_bracket :
    ∀ (f : Nat) (cs : List Char), '[' ∉ cs → collapseBracketsFuel f cs = cs := by
  intro f
  induction f with
  | zero => intro cs _; rfl
  | succ f ih =>
    intro cs hcs
    cases cs with
    | nil => rfl
    | cons c rest =>
      have hc : ¬(c = '[') := fun he => hcs (he ▸ List.mem_cons_self _ _)
      show collapseBracketsFuel (f + 1) (c :: rest) = c :: rest
      unfold collapseBracketsFuel
      rw [if_neg hc, ih rest (fun hm => hcs (List.mem_cons_of_mem _ hm))]

theorem collapseBrackets_no_bracket {cs : List Char} (h : '[' ∉ cs) :
    collapseBrackets cs = cs :=
  collapseBracketsFuel_no_bracket cs.length cs h

theorem scanDeclsFuel_no_bracket :
    ∀ (f : Nat) (b : Bool) (cs : List Char), '[' ∉ cs →
      scanDeclsFuel f b cs = [] := by
  intro f
  induction f with
  | zero => intro b cs _; rfl
  | succ f ih =>
    intro b cs hcs
    cases cs with
    | nil => rfl
    | cons c rest =>
      have hrest : '[' ∉ rest := fun hm => hcs (List.mem_cons_of_mem _ hm)
      show scanDeclsFuel (f + 1) b (c :: rest) = []
      unfold scanDeclsFuel
      by_cases hb : c.isAlpha && !b
      · rw [if_pos hb]
        simp only
        have hhd : ((rest.drop (rest.takeWhile isIdentChar).length).dropWhile
            isPySpace).head? ≠ some '[' := by
          intro hh
          cases hdw : ((rest.drop (rest.takeWhile isIdentChar).length).dropWhile
              isPySpace) with
          | nil => rw [hdw] at hh; simp at hh
          | cons d tl =>
            rw [hdw] at hh
            simp only [List.head?_cons, Option.some.injEq] at hh
            subst hh
            have hmem : '[' ∈ rest := by
              have h1 : '[' ∈ (rest.drop
                  (rest.takeWhile isIdentChar).length).dropWhile isPySpace := by
                rw [hdw]; exact List.mem_cons_self _ _
              exact (List.drop_sublist _ _).mem
                ((List.dropWhile_sublist _).mem h1)
            exact hrest hmem
        rw [if_neg hhd, ih _ rest hrest]
      · rw [if_neg hb, ih _ rest hrest]

theorem applyRenames_no_bracket {cs : List Char} (h : '[' ∉ cs) :
    applyRenames cs = cs := by
  unfold applyRenames nodeIdMap scanDecls
  rw [scanDeclsFuel_no_bracket cs.length false cs h]
  rfl

theorem splitLinesFuel_no_break :
    ∀ (f : Nat) (cur cs : List Char), cs.length ≤ f →
      (∀ c ∈ cs, isLineBreak c = false) →
      splitLinesFuel f cur cs
        = if (cur.isEmpty && cs.isEmpty) then [] else [cur.reverse ++ cs] := by
  intro f
  induction f with
  | zero =>
    intro cur cs hf _
    have h0 : cs = [] := List.length_eq_zero.mp (Nat.le_zero.mp hf)
    subst h0
    show (if cur.isEmpty then [] else [cur.reverse])
      = if (cur.isEmpty && true) then [] else [cur.reverse ++ []]
    rw [Bool.and_true, List.append_nil]
  | succ f ih =>
    intro cur cs hf hbr
    cases cs with
    | nil =>
      show (if cur.isEmpty then [] else [cur.reverse])
        = if (cur.isEmpty && true) then [] else [cur.reverse ++ []]
      rw [Bool.and_true, List.append_nil]
    | cons c t =>
      have hc := hbr c (List.mem_cons_self _ _)
      have hcr : ¬(c = '\x0d') := by
        intro he
        rw [he] at hc
        exact absurd hc (by decide)
      show splitLinesFuel (f + 1) cur (c :: t) = _
      unfold splitLinesFuel
      rw [if_neg hcr, if_neg (by simp [hc])]
      rw [ih (c :: cur) t (by simpa using hf)
        (fun x hx => hbr x (List.mem_cons_of_mem _ hx))]
      have hne : ((c :: cur).isEmpty && t.isEmpty) = false := by
        simp [List.isEmpty]
      rw [hne]
      have hne2 : (cur.isEmpty && (c :: t).isEmpty) = false := by
        simp [List.isEmpty]
      rw [hne2]
      simp

theorem splitLines_no_break {cs : List Char}
    (h : ∀ c ∈ cs, isLineBreak c = false) :
    splitLines cs = if cs.isEmpty then [] else [cs] := by
  unfold splitLines
  rw [splitLinesFuel_no_break cs.length [] cs (le_refl _) h]
  cases cs <;> rfl

/-- The whole sanitizer on a single bracket-free line. -/
theorem sanitizeL_reduced {cs : List Char}
    (hbr : ∀ c ∈ cs, isLineBreak c = false) (hlb : '[' ∉ cs) :
    sanitizeMermaidL cs =
      if cs.isEmpty then []
      else if isLifecycleLine cs then []
      else cleanupLine cs := by
  unfold sanitizeMermaidL
  rw [collapseBrackets_no_bracket hlb, applyRenames_no_bracket hlb,
    splitLines_no_break hbr]
  by_cases hempty : cs.isEmpty
  · rw [if_pos hempty, if_pos hempty]
    rfl
  · rw [if_neg hempty, if_neg hempty]
    unfold filterLines
    by_cases hlc : isLifecycleLine cs
    · rw [if_pos hlc, if_pos hlc]
      rfl
    · rw [if_neg hlc, if_neg hlc]
      rfl

theorem mem_pyStripRight {c : Char} {l : List Char} (h : c ∈ pyStripRight l) :
    c ∈ l := by
  obtain ⟨hdec, _⟩ := pyStripRight_decomp l
  rw [hdec]
  exact List.mem_append_left _ h

/-- The per-line cleanup introduces no line terminators and no `'['`. -/
theorem cleanupLine_chars {cs : List Char}
    (hbr : ∀ c ∈ cs, isLineBreak c = false) (hlb : '[' ∉ cs) :
    (∀ c ∈ cleanupLine cs, isLineBreak c = false) ∧ '[' ∉ cleanupLine cs := by
  constructor
  · intro c hc
    have hc2 : c ∈ letterSub cs := mem_pyStripRight hc
    rcases letterSub_mem cs.length cs (le_refl _) c hc2 with h | h | h
    · exact hbr c h
    · rw [h]; decide
    · rw [h]; decide
  · intro hc
    have hc2 : '[' ∈ letterSub cs := mem_pyStripRight hc
    rcases letterSub_mem cs.length cs (le_refl _) '[' hc2 with h | h | h
    · exact hlb h
    · exact absurd h (by decide)
    · exact absurd h (by decide)

/-- C5 counterexample: `sanitizeDiagramCode` is not idempotent.  Two
independent failure modes: line-terminator inputs (Python
`splitlines`/`join` turn every terminator into `\n` and drop a trailing
empty line, so each application changes the text — shown both for `"\n\n"`
and for the file-separator input `"\x1c\x1c"`, which `splitlines` also
splits), and the single-line `"a-[p] a_[q] a_-x"` (replacing the declared
identifier `a_` creates a fresh whole-token occurrence of the declared
identifier `a-`, which only the second pass rewrites). -/
theorem sanitize_not_idempotent :
    (sanitizeMermaid (sanitizeMermaid "\n\n") ≠ sanitizeMermaid "\n\n")
    ∧ (sanitizeMermaid (sanitizeMermaid "\x1c\x1c") ≠ sanitizeMermaid "\x1c\x1c")
    ∧ (sanitizeMermaid (sanitizeMermaid "a-[p] a_[q] a_-x")
        ≠ sanitizeMermaid "a-[p] a_[q] a_-x") :=
  ⟨by decide, by decide, by decide⟩

/-- C5 (amended): `sanitizeDiagramCode` is idempotent on every input that
contains no `str.splitlines` boundary character (`\n`, `\r`, `\v`, `\f`,
`\x1c`, `\x1d`, `\x1e`, `\x85`, U+2028, U+2029 — see `isLineBreak`) and no
opening bracket `'['` (hence no node declaration and no label collapse);
the counterexample modes above force exactly these two exclusions. -/
theorem sanitize_idempotent_restricted (code : String)
    (hbr : ∀ c ∈ code.toList, isLineBreak c = false)
    (hlb : '[' ∉ code.toList) :
    sanitizeMermaid (sanitizeMermaid code) = sanitizeMermaid code := by
  unfold sanitizeMermaid
  show (sanitizeMermaidL (List.asString (sanitizeMermaidL code.toList)).toList).asString
      = _
  have hts : (List.asString (sanitizeMermaidL code.toList)).toList
      = sanitizeMermaidL code.toList := rfl
  rw [hts]
  refine congrArg List.asString ?_
  rw [sanitizeL_reduced hbr hlb]
  by_cases hempty : code.toList.isEmpty
  · rw [if_pos hempty]
    rfl
  · rw [if_neg hempty]
    by_cases hlc : isLifecycleLine code.toList
    · rw [if_pos hlc]
      rfl
    · rw [if_neg hlc]
      obtain ⟨hbr2, hlb2⟩ := cleanupLine_chars hbr hlb
      rw [sanitizeL_reduced hbr2 hlb2]
      by_cases hempty2 : (cleanupLine code.toList).isEmpty
      · rw [if_pos hempty2]
        exact (List.isEmpty_iff.mp hempty2).symm
      · rw [if_neg hempty2, isLifecycleLine_cleanupLine, if_neg hlc]
        exact cleanupLine_idem code.toList

/-- Witness for the amended C5 at a concrete bracket-free one-line input. -/
theorem sanitize_idempotent_restricted_witness :
    ((∀ c ∈ "a_b --> c".toList, isLineBreak c = false)
      ∧ '[' ∉ "a_b --> c".toList)
    ∧ sanitizeMermaid (sanitizeMermaid "a_b --> c")
        = sanitizeMermaid "a_b --> c" :=
  ⟨⟨by decide, by decide⟩,
   sanitize_idempotent_restricted "a_b --> c" (by decide) (by decide)⟩

end SageScript

namespace SageScript

theorem ne_of_alpha {c d : Char} (hc : c.isAlpha = true) (hd : d.isAlpha = false) :
    c ≠ d := fun he => by rw [he, hd] at hc; exact absurd hc (by decide)

theorem isPySpace_eq_false_of_alpha {c : Char} (hc : c.isAlpha = true) :
    isPySpace c = false := by
  cases hx : isPySpace c with
  | false => rfl
  | true =>
    exfalso
    unfold isPySpace at hx
    simp only [Bool.or_eq_true, decide_eq_true_eq] at hx
    rcases hx with ((((((((((((((((((((((((((((h | h) | h) | h) | h) | h) | h) | h) | h) | h) | h) | h) | h) | h) | h) | h) | h) | h) | h) | h) | h) | h) | h) | h) | h) | h) | h) | h) | h) <;>
      (rw [h] at hc; exact absurd hc (by decide))

theorem isLineBreak_eq_false_of_alpha {c : Char} (hc : c.isAlpha = true) :
    isLineBreak c = false := by
  cases hx : isLineBreak c with
  | false => rfl
  | true =>
    exfalso
    unfold isLineBreak at hx
    simp only [Bool.or_eq_true, decide_eq_true_eq] at hx
    rcases hx with (((((((((h | h) | h) | h) | h) | h) | h) | h) | h) | h) <;>
      (rw [h] at hc; exact absurd hc (by decide))

theorem splitAtRB_append {a : List Char} (ha : ']' ∉ a) (b : List Char) :
    splitAtRB (a ++ ']' :: b) = some (a, b) := by
  induction a with
  | nil => rfl
  | cons c t ih =>
    have hc : ¬(c = ']') := fun he => ha (he ▸ List.mem_cons_self _ _)
    have ht := ih (fun hm => ha (List.mem_cons_of_mem _ hm))
    rw [List.cons_append, splitAtRB.eq_def]
    split
    · simp_all
    · simp_all
    · rename_i heq
      simp only [List.cons.injEq] at heq
      rw [← heq.2, ht, ← heq.1]

theorem takeWhile_append_stop {p : Char → Bool} {a : List Char}
    (ha : ∀ c ∈ a, p c = true) {c : Char} (hc : p c = false) (X : List Char) :
    (a ++ c :: X).takeWhile p = a := by
  induction a with
  | nil => simp [List.takeWhile_cons, hc]
  | cons d t ih =>
    rw [List.cons_append, List.takeWhile_cons, ha d (List.mem_cons_self _ _),
      if_pos rfl, ih (fun x hx => ha x (List.mem_cons_of_mem _ hx))]

theorem collapseBracketsFuel_copy {seg : List Char} (hseg : '[' ∉ seg) :
    ∀ (rest : List Char) (f : Nat),
    collapseBracketsFuel (f + seg.length) (seg ++ rest)
      = seg ++ collapseBracketsFuel f rest := by
  induction seg with
  | nil => intro rest f; rfl
  | cons c s ih =>
    intro rest f
    have hc : ¬(c = '[') := fun he => hseg (he ▸ List.mem_cons_self _ _)
    show collapseBracketsFuel ((f + s.length) + 1) (c :: (s ++ rest)) = _
    conv_lhs => unfold collapseBracketsFuel
    rw [if_neg hc, ih (fun hm => hseg (List.mem_cons_of_mem _ hm)) rest f]
    rfl

theorem collapseBracketsFuel_lb_no_nl {content : List Char} (after : List Char)
    (hcontent : ']' ∉ content) (hnl : content.contains '\n' = false) (f : Nat) :
    collapseBracketsFuel (f + 1) ('[' :: (content ++ ']' :: after))
      = '[' :: collapseBracketsFuel f (content ++ ']' :: after) := by
  conv_lhs => unfold collapseBracketsFuel
  rw [if_pos rfl, splitAtRB_append hcontent after]
  show (if content.contains '\n' = true then _ else _) = _
  rw [if_neg (by rw [hnl]; exact Bool.false_ne_true)]

theorem mem_take_of_getElem {l : List Char} {k : Nat} {a : Char}
    (h : l[k]? = some a) : a ∈ l.take (k + 1) := by
  have h2 : (l.take (k + 1))[k]? = some a := by
    rw [List.getElem?_take, if_pos (Nat.lt_succ_self k)]
    exact h
  obtain ⟨hl, hv⟩ := List.getElem?_eq_some.mp h2
  exact hv ▸ List.getElem_mem hl

theorem not_isPrefixOf_of_missing {old t : List Char} {ch : Char} {k : Nat}
    (hk : old[k]? = some ch) (ht : ch ∉ t.take (k + 1)) :
    old.isPrefixOf t = false := by
  cases hp : old.isPrefixOf t with
  | false => rfl
  | true =>
    exfalso
    obtain ⟨u, hu⟩ := List.isPrefixOf_iff_prefix.mp hp
    obtain ⟨hklen, _⟩ := List.getElem?_eq_some.mp hk
    have h1 : t[k]? = some ch := by
      rw [← hu, List.getElem?_append, if_pos hklen]
      exact hk
    exact ht (mem_take_of_getElem h1)

theorem replaceTokenFuel_nil (old new : List Char) (f : Nat) (p : Bool) :
    replaceTokenFuel old new f p [] = [] := by
  cases f <;> rfl

theorem replaceTokenFuel_match {old : List Char} (new : List Char) (rest : List Char)
    {f : Nat} (hf : 1 ≤ f) {prevWord : Bool}
    (h0 : old ≠ [])
    (hl : (prevWord != isWordChar (old.headD ' ')) = true)
    (hr : boundaryAfter (isWordChar (old.getLastD ' ')) rest = true) :
    replaceTokenFuel old new f prevWord (old ++ rest)
      = new ++ replaceTokenFuel old new (f - 1) (isWordChar (old.getLastD ' ')) rest := by
  cases f with
  | zero => exact absurd hf (by omega)
  | succ f =>
    cases old with
    | nil => exact absurd rfl h0
    | cons c os =>
      show replaceTokenFuel (c :: os) new (f + 1) prevWord (c :: (os ++ rest)) = _
      have hdrop : (c :: (os ++ rest)).drop (c :: os).length = rest := by
        show ((c :: os) ++ rest).drop (c :: os).length = rest
        exact List.drop_left _ _
      have hpre : (c :: os).isPrefixOf (c :: (os ++ rest)) = true :=
        List.isPrefixOf_iff_prefix.mpr ⟨rest, rfl⟩
      conv_lhs => unfold replaceTokenFuel
      rw [if_pos (by rw [hdrop, hpre, hl, hr]; rfl), hdrop]
      rfl

theorem replaceTokenFuel_copy {old : List Char} (new : List Char) {ch : Char} {k : Nat}
    (hk : old[k]? = some ch) :
    ∀ (seg : List Char), ch ∉ seg →
    ∀ (rest : List Char), ch ∉ rest.take k →
    ∀ (f : Nat), seg.length ≤ f → ∀ (prevWord : Bool),
    replaceTokenFuel old new f prevWord (seg ++ rest)
      = seg ++ replaceTokenFuel old new (f - seg.length)
          (seg.foldl (fun _ d => isWordChar d) prevWord) rest := by
  intro seg
  induction seg with
  | nil =>
    intro _ rest _ f _ p
    simp
  | cons c s ih =>
    intro hseg rest hrest f hf p
    cases f with
    | zero => exact absurd hf (by simp)
    | succ f =>
      show replaceTokenFuel old new (f + 1) p (c :: (s ++ rest)) = _
      have hpre : old.isPrefixOf (c :: (s ++ rest)) = false := by
        apply not_isPrefixOf_of_missing hk
        intro hmem
        rw [List.take_succ_cons] at hmem
        rcases List.mem_cons.mp hmem with he | hm
        · exact hseg (he ▸ List.mem_cons_self _ _)
        · rw [List.take_append_eq_append_take] at hm
          rcases List.mem_append.mp hm with h1 | h2
          · exact hseg (List.mem_cons_of_mem _ (List.take_subset _ _ h1))
          · refine hrest ?_
            have hsub : rest.take (k - s.length) = (rest.take k).take (k - s.length) := by
              rw [List.take_take]
              congr 1
              omega
            exact List.take_subset _ _ (hsub ▸ h2)
      conv_lhs => unfold replaceTokenFuel
      rw [if_neg (by simp [hpre]),
        ih (fun hm => hseg (List.mem_cons_of_mem _ hm)) rest hrest f
          (Nat.le_of_succ_le_succ hf) (isWordChar c)]
      simp only [List.cons_append, List.length_cons, Nat.succ_sub_succ, List.foldl_cons]

theorem foldl_word_last (init : Bool) (xs : List Char) (a : Char) :
    (xs ++ [a]).foldl (fun _ d => isWordChar d) init = isWordChar a := by
  rw [List.foldl_append]
  rfl

theorem splitLinesFuel_copy {a : List Char} (ha : ∀ c ∈ a, isLineBreak c = false) :
    ∀ (cur t : List Char) (f : Nat), a.length ≤ f →
    splitLinesFuel f cur (a ++ t)
      = splitLinesFuel (f - a.length) (a.reverse ++ cur) t := by
  induction a with
  | nil => intro cur t f _; simp
  | cons c s ih =>
    intro cur t f hf
    cases f with
    | zero => exact absurd hf (by simp)
    | succ f =>
      have hc := ha c (List.mem_cons_self _ _)
      have hcr : ¬(c = '\x0d') := by
        intro he
        rw [he] at hc
        exact absurd hc (by decide)
      show splitLinesFuel (f + 1) cur (c :: (s ++ t)) = _
      conv_lhs => unfold splitLinesFuel
      rw [if_neg hcr, if_neg (by simp [hc]),
        ih (fun x hx => ha x (List.mem_cons_of_mem _ hx)) (c :: cur) t f
          (Nat.le_of_succ_le_succ hf)]
      simp only [List.length_cons, Nat.succ_sub_succ, List.reverse_cons,
        List.append_assoc, List.cons_append, List.nil_append]

theorem splitLines_two {a b : List Char} (ha : ∀ c ∈ a, isLineBreak c = false)
    (hb : ∀ c ∈ b, isLineBreak c = false) (hbne : b ≠ []) :
    splitLines (a ++ '\n' :: b) = [a, b] := by
  unfold splitLines
  have hlen : (a ++ '\n' :: b).length = (b.length + 1) + a.length := by
    simp [List.length_append]
    omega
  rw [hlen, splitLinesFuel_copy ha [] ('\n' :: b) _ (by omega),
    show ((b.length + 1) + a.length) - a.length = b.length + 1 from by omega]
  conv_lhs => unfold splitLinesFuel
  rw [if_neg (by decide), if_pos (by decide),
    splitLinesFuel_no_break b.length [] b (le_refl _) hb]
  have hbe : b.isEmpty = false := by
    cases b with
    | nil => exact absurd rfl hbne
    | cons _ _ => rfl
  rw [if_neg (by simp [hbe])]
  simp

theorem isLifecycleLine_head_ne {c : Char} (hws : isPySpace c = false)
    (ha : c.toLower ≠ 'a') (hd : c.toLower ≠ 'd') (t : List Char) :
    isLifecycleLine (c :: t) = false := by
  unfold isLifecycleLine
  have hstrip : pyStrip (c :: t) = c :: pyStripRight t := by
    show pyStripRight (pyStripLeft (c :: t)) = _
    rw [pyStripLeft_cons_of_not_ws hws, pyStripRight_cons_of_not_ws hws]
  rw [hstrip, pyLower_cons]
  have h1 : "activate ".toList.isPrefixOf (c.toLower :: pyLower (pyStripRight t))
      = false := by
    show (('a' == c.toLower) && _) = false
    rw [beq_eq_false_iff_ne.mpr (fun he => ha he.symm), Bool.false_and]
  have h2 : "deactivate ".toList.isPrefixOf (c.toLower :: pyLower (pyStripRight t))
      = false := by
    show (('d' == c.toLower) && _) = false
    rw [beq_eq_false_iff_ne.mpr (fun he => hd he.symm), Bool.false_and]
  rw [h1, h2]
  rfl

theorem scanDecls_c6 {tailX : List Char} (htail : '[' ∉ tailX) :
    scanDecls ("user_name".toList ++ '[' :: tailX) = ["user_name".toList] := by
  unfold scanDecls
  show scanDeclsFuel ((("ser_name".toList ++ '[' :: tailX)).length + 1) false
      ('u' :: ("ser_name".toList ++ '[' :: tailX)) = _
  have htw : ("ser_name".toList ++ '[' :: tailX).takeWhile isIdentChar
      = "ser_name".toList :=
    takeWhile_append_stop (by decide) (by decide) tailX
  conv_lhs => unfold scanDeclsFuel
  rw [if_pos (by decide)]
  simp only [htw, List.drop_left, List.dropWhile_cons]
  rw [if_neg (show ¬(isPySpace '[' = true) by decide)]
  simp only [List.head?_cons, List.tail_cons]
  rw [if_pos trivial, scanDeclsFuel_no_bracket _ _ _ htail]
  rfl

theorem replaceTokenFuel_copy_end {old : List Char} (new : List Char) {ch : Char}
    {k : Nat} (hk : old[k]? = some ch) (seg : List Char) (hseg : ch ∉ seg)
    (f : Nat) (hf : seg.length ≤ f) (p : Bool) :
    replaceTokenFuel old new f p seg = seg := by
  have h := replaceTokenFuel_copy new hk seg hseg [] (by simp) f hf p
  simpa [replaceTokenFuel_nil] using h

theorem replaceToken_c6 {lab other : List Char}
    (hlab : ∀ c ∈ lab, c.isAlpha = true ∨ c = ' ')
    (hoth : ∀ c ∈ other, c.isAlpha = true) :
    replaceToken "user_name".toList "userName".toList
      ("user_name".toList ++ ('[' :: (lab ++ (']' :: ('\n' ::
        ("user_name".toList ++ (" --> ".toList ++ other)))))))
      = "userName".toList ++ ('[' :: (lab ++ (']' :: ('\n' ::
        ("userName".toList ++ (" --> ".toList ++ other)))))) := by
  have hlab2 : ∀ c ∈ lab, c ≠ '_' := by
    intro c hc
    rcases hlab c hc with h | h
    · exact ne_of_alpha h (by decide)
    · rw [h]; decide
  have hoth2 : ∀ c ∈ other, c ≠ '_' := fun c hc =>
    ne_of_alpha (hoth c hc) (by decide)
  have hk : ("user_name".toList)[4]? = some '_' := by decide
  have h9 : ("user_name".toList).length = 9 := rfl
  have h5 : (" --> ".toList).length = 5 := rfl
  have hseg1 : '_' ∉ ('[' :: (lab ++ [']', '\n'])) := by
    intro hm
    rcases List.mem_cons.mp hm with h | h
    · exact absurd h (by decide)
    · rcases List.mem_append.mp h with h1 | h2
      · exact hlab2 '_' h1 rfl
      · revert h2; decide
  have hrest2 : '_' ∉ (("user_name".toList ++ (" --> ".toList ++ other)).take 4) := by
    rw [show (("user_name".toList ++ (" --> ".toList ++ other)).take 4)
      = "user".toList from rfl]
    decide
  have hseg3 : '_' ∉ (" --> ".toList ++ other) := by
    intro hm
    rcases List.mem_append.mp hm with h1 | h2
    · revert h1; decide
    · exact hoth2 '_' h2 rfl
  unfold replaceToken
  have hlen : ("user_name".toList ++ ('[' :: (lab ++ (']' :: ('\n' ::
      ("user_name".toList ++ (" --> ".toList ++ other))))))).length
      = 26 + lab.length + other.length := by
    simp only [List.length_append, List.length_cons, h9, h5]
    omega
  rw [hlen]
  have hb1 : boundaryAfter (isWordChar ("user_name".toList.getLastD ' '))
      ('[' :: (lab ++ (']' :: ('\n' :: ("user_name".toList
        ++ (" --> ".toList ++ other)))))) = true := by
    show (isWordChar ("user_name".toList.getLastD ' ') != isWordChar '[') = true
    decide
  rw [replaceTokenFuel_match "userName".toList
    ('[' :: (lab ++ (']' :: ('\n' :: ("user_name".toList
      ++ (" --> ".toList ++ other))))))
    (by omega) (by decide) (by decide) hb1]
  rw [show isWordChar ("user_name".toList.getLastD ' ') = true from by decide]
  rw [show ('[' :: (lab ++ (']' :: ('\n' :: ("user_name".toList
        ++ (" --> ".toList ++ other))))))
      = ('[' :: (lab ++ [']', '\n'])) ++ ("user_name".toList
        ++ (" --> ".toList ++ other)) from by simp]
  rw [replaceTokenFuel_copy "userName".toList hk ('[' :: (lab ++ [']', '\n']))
    hseg1 ("user_name".toList ++ (" --> ".toList ++ other)) hrest2
    (26 + lab.length + other.length - 1)
    (by simp only [List.length_cons, List.length_append, List.length_nil]; omega) true]
  rw [show ('[' :: (lab ++ [']', '\n'])).foldl (fun _ d => isWordChar d) true
      = false from by
    rw [show ('[' :: (lab ++ [']', '\n'])) = ('[' :: (lab ++ [']'])) ++ ['\n']
        from by simp, foldl_word_last]
    decide]
  have hb2 : boundaryAfter (isWordChar ("user_name".toList.getLastD ' '))
      (" --> ".toList ++ other) = true := by
    show (isWordChar ("user_name".toList.getLastD ' ') != isWordChar ' ') = true
    decide
  rw [replaceTokenFuel_match "userName".toList (" --> ".toList ++ other)
    (by simp only [List.length_cons, List.length_append, List.length_nil]; omega)
    (by decide) (by decide) hb2]
  rw [show isWordChar ("user_name".toList.getLastD ' ') = true from by decide]
  rw [replaceTokenFuel_copy_end "userName".toList hk (" --> ".toList ++ other)
    hseg3 _ (by simp only [List.length_cons, List.length_append, List.length_nil, h9, h5]; omega) true]
  simp

theorem ne_of_not_mem {L : List Char} {d : Char} (h : d ∉ L) :
    ∀ c ∈ L, c ≠ d := fun _ hc he => h (he ▸ hc)

theorem applyRenames_c6 {cs : List Char}
    (hscan : scanDecls cs = ["user_name".toList]) :
    applyRenames cs = replaceToken "user_name".toList "userName".toList cs := by
  unfold applyRenames nodeIdMap
  rw [hscan]
  rfl

theorem collapseBrackets_c6 {pre content post : List Char}
    (hpre : '[' ∉ pre) (hc1 : ']' ∉ content) (hc2 : '[' ∉ content)
    (hnl : content.contains '\n' = false) (hpost : '[' ∉ post) :
    collapseBrackets (pre ++ ('[' :: (content ++ (']' :: post))))
      = pre ++ ('[' :: (content ++ (']' :: post))) := by
  unfold collapseBrackets
  have hlen : (pre ++ ('[' :: (content ++ (']' :: post)))).length
      = (((content ++ (']' :: post)).length) + 1) + pre.length := by
    simp only [List.length_append, List.length_cons]
    omega
  rw [hlen, collapseBracketsFuel_copy hpre ('[' :: (content ++ (']' :: post)))
    ((content ++ (']' :: post)).length + 1),
    collapseBracketsFuel_lb_no_nl post hc1 hnl _,
    collapseBracketsFuel_no_bracket _ _ (by
      intro hm
      rcases List.mem_append.mp hm with h | h
      · exact hc2 h
      · rcases List.mem_cons.mp h with h | h
        · exact absurd h (by decide)
        · exact hpost h)]

theorem cleanupLine_c6_line1 {lab : List Char}
    (hlab : ∀ c ∈ lab, c.isAlpha = true ∨ c = ' ') :
    cleanupLine ("userName".toList ++ ('[' :: (lab ++ [']'])))
      = "userName".toList ++ ('[' :: (lab ++ [']'])) := by
  have hlabne : ∀ c ∈ lab, c ≠ ']' := by
    intro c hc
    rcases hlab c hc with h | h
    · exact ne_of_alpha h (by decide)
    · rw [h]; decide
  have hne : ∀ c ∈ ("userName".toList ++ ('[' :: lab)), c ≠ ']' := by
    intro c hc
    rcases List.mem_append.mp hc with h | h
    · exact ne_of_not_mem (by decide) c h
    · rcases List.mem_cons.mp h with h | h
      · rw [h]; decide
      · exact hlabne c h
  unfold cleanupLine
  rw [show "userName".toList ++ ('[' :: (lab ++ [']']))
      = ("userName".toList ++ ('[' :: lab)) ++ (']' :: []) from by simp,
    letterSub_copy hne, letterSub_rb_none (show matchStray [] = none from rfl), letterSub_nil,
    pyStripRight_append_rb]
  rfl

theorem cleanupLine_c6_line2 {other : List Char} (hone : other ≠ [])
    (hoth : ∀ c ∈ other, c.isAlpha = true) :
    cleanupLine ("userName".toList ++ (" --> ".toList ++ other))
      = "userName".toList ++ (" --> ".toList ++ other) := by
  have hne : ∀ c ∈ ("userName".toList ++ (" --> ".toList ++ other)), c ≠ ']' := by
    intro c hc
    rcases List.mem_append.mp hc with h | h
    · exact ne_of_not_mem (by decide) c h
    · rcases List.mem_append.mp h with h | h
      · exact ne_of_not_mem (by decide) c h
      · exact ne_of_alpha (hoth c h) (by decide)
  obtain ⟨o2, a, hoa⟩ : ∃ o2 a, other = o2 ++ [a] := by
    rcases List.eq_nil_or_concat other with h | ⟨o2, a, h⟩
    · exact absurd h hone
    · exact ⟨o2, a, by simpa [List.concat_eq_append] using h⟩
  have hna : isPySpace a = false :=
    isPySpace_eq_false_of_alpha
      (hoth a (hoa ▸ List.mem_append_right o2 (List.mem_cons_self a [])))
  have hsa : pyStripRight [a] ≠ [] := by
    rw [show ([a] : List Char) = a :: [] from rfl, pyStripRight_cons_of_not_ws hna]
    simp
  unfold cleanupLine
  rw [letterSub_all_ne hne, hoa,
    show "userName".toList ++ (" --> ".toList ++ (o2 ++ [a]))
      = ("userName".toList ++ (" --> ".toList ++ o2)) ++ [a] from by simp,
    pyStripRight_append_of_ne _ hsa,
    pyStripRight_cons_of_not_ws hna]
  rfl

theorem filterLines_two {l1 l2 : List Char} (h1 : isLifecycleLine l1 = false)
    (h2 : isLifecycleLine l2 = false) :
    filterLines [l1, l2] = [cleanupLine l1, cleanupLine l2] := by
  show (if isLifecycleLine l1 then filterLines [l2]
    else cleanupLine l1 :: filterLines [l2]) = _
  rw [if_neg (by simp [h1])]
  show cleanupLine l1 :: (if isLifecycleLine l2 then filterLines []
    else cleanupLine l2 :: filterLines []) = _
  rw [if_neg (by simp [h2])]
  rfl

theorem sanitizeMermaidL_c6 {lab other : List Char}
    (hlab : ∀ c ∈ lab, c.isAlpha = true ∨ c = ' ')
    (hone : other ≠ []) (hoth : ∀ c ∈ other, c.isAlpha = true) :
    sanitizeMermaidL ("user_name".toList ++ ('[' :: (lab ++ (']' :: ('\n' ::
        ("user_name".toList ++ (" --> ".toList ++ other)))))))
      = "userName".toList ++ ('[' :: (lab ++ (']' :: ('\n' ::
        ("userName".toList ++ (" --> ".toList ++ other)))))) := by
  have hc1 : ']' ∉ lab := by
    intro hm
    rcases hlab ']' hm with h | h
    · exact absurd h (by decide)
    · exact absurd h (by decide)
  have hc2 : '[' ∉ lab := by
    intro hm
    rcases hlab '[' hm with h | h
    · exact absurd h (by decide)
    · exact absurd h (by decide)
  have hnl : lab.contains '\n' = false := by
    cases hx : lab.contains '\n' with
    | false => rfl
    | true =>
      exfalso
      have hm : '\n' ∈ lab := by simpa using hx
      rcases hlab '\n' hm with h | h
      · exact absurd h (by decide)
      · exact absurd h (by decide)
  have hoth2 : '[' ∉ other := by
    intro hm
    exact absurd (hoth '[' hm) (by decide)
  have hpost : '[' ∉ ('\n' :: ("user_name".toList ++ (" --> ".toList ++ other))) := by
    intro hm
    rcases List.mem_cons.mp hm with h | h
    · exact absurd h (by decide)
    · rcases List.mem_append.mp h with h | h
      · revert h; decide
      · rcases List.mem_append.mp h with h | h
        · revert h; decide
        · exact hoth2 h
  have htail : '[' ∉ (lab ++ (']' :: ('\n' ::
      ("user_name".toList ++ (" --> ".toList ++ other))))) := by
    intro hm
    rcases List.mem_append.mp hm with h | h
    · exact hc2 h
    · rcases List.mem_cons.mp h with h | h
      · exact absurd h (by decide)
      · exact hpost h
  unfold sanitizeMermaidL
  rw [collapseBrackets_c6 (by decide) hc1 hc2 hnl hpost,
    applyRenames_c6 (scanDecls_c6 htail),
    replaceToken_c6 hlab hoth,
    show "userName".toList ++ ('[' :: (lab ++ (']' :: ('\n' ::
        ("userName".toList ++ (" --> ".toList ++ other))))))
      = ("userName".toList ++ ('[' :: (lab ++ [']']))) ++ '\n' ::
        ("userName".toList ++ (" --> ".toList ++ other)) from by simp]
  have ha : ∀ c ∈ ("userName".toList ++ ('[' :: (lab ++ [']']))),
      isLineBreak c = false := by
    intro c hc
    rcases List.mem_append.mp hc with h | h
    · exact (show ∀ x ∈ "userName".toList, isLineBreak x = false from by decide) c h
    · rcases List.mem_cons.mp h with h | h
      · rw [h]; decide
      · rcases List.mem_append.mp h with h | h
        · rcases hlab c h with h2 | h2
          · exact isLineBreak_eq_false_of_alpha h2
          · rw [h2]; decide
        · rcases List.mem_cons.mp h with h | h
          · rw [h]; decide
          · exact absurd h (List.not_mem_nil c)
  have hb : ∀ c ∈ ("userName".toList ++ (" --> ".toList ++ other)),
      isLineBreak c = false := by
    intro c hc
    rcases List.mem_append.mp hc with h | h
    · exact (show ∀ x ∈ "userName".toList, isLineBreak x = false from by decide) c h
    · rcases List.mem_append.mp h with h | h
      · exact (show ∀ x ∈ " --> ".toList, isLineBreak x = false from by decide) c h
      · exact isLineBreak_eq_false_of_alpha (hoth c h)
  have hbne : ("userName".toList ++ (" --> ".toList ++ other)) ≠ [] := by
    show ('u' :: ("serName".toList ++ (" --> ".toList ++ other))) ≠ []
    simp
  rw [splitLines_two ha hb hbne]
  have h1 : isLifecycleLine ("userName".toList ++ ('[' :: (lab ++ [']']))) = false := by
    show isLifecycleLine ('u' :: ("serName".toList ++ ('[' :: (lab ++ [']'])))) = false
    exact isLifecycleLine_head_ne (by decide) (by decide) (by decide) _
  have h2 : isLifecycleLine ("userName".toList ++ (" --> ".toList ++ other)) = false := by
    show isLifecycleLine ('u' :: ("serName".toList ++ (" --> ".toList ++ other))) = false
    exact isLifecycleLine_head_ne (by decide) (by decide) (by decide) _
  rw [filterLines_two h1 h2, cleanupLine_c6_line1 hlab,
    cleanupLine_c6_line2 hone hoth]
  show ("userName".toList ++ ('[' :: (lab ++ [']']))) ++ '\n' ::
      ("userName".toList ++ (" --> ".toList ++ other)) = _
  simp

/-- C6: a diagram with a node declaration `user_name[Label]` and a later edge
use `user_name --> other` has both occurrences of the identifier rewritten to
the same camelCase identifier `userName` (declaration-site collection,
whole-token replacement), for every label made of letters and spaces and
every non-empty alphabetic edge target. -/
theorem node_rename_consistent (lab other : String)
    (hlab : ∀ c ∈ lab.toList, c.isAlpha = true ∨ c = ' ')
    (hone : other.toList ≠ [])
    (hoth : ∀ c ∈ other.toList, c.isAlpha = true) :
    sanitizeMermaid ("user_name[" ++ lab ++ "]\nuser_name --> " ++ other)
      = "userName[" ++ lab ++ "]\nuserName --> " ++ other := by
  unfold sanitizeMermaid
  have e1 : "user_name[".toList = "user_name".toList ++ ['['] := rfl
  have e2 : "]\nuser_name --> ".toList
      = [']', '\n'] ++ ("user_name".toList ++ " --> ".toList) := rfl
  have htl : ("user_name[" ++ lab ++ "]\nuser_name --> " ++ other).toList
      = "user_name".toList ++ ('[' :: (lab.toList ++ (']' :: ('\n' ::
        ("user_name".toList ++ (" --> ".toList ++ other.toList)))))) := by
    show (("user_name[".toList ++ lab.toList) ++ "]\nuser_name --> ".toList)
        ++ other.toList = _
    rw [e1, e2]
    simp
  have e3 : "userName[".toList = "userName".toList ++ ['['] := rfl
  have e4 : "]\nuserName --> ".toList
      = [']', '\n'] ++ ("userName".toList ++ " --> ".toList) := rfl
  have htr : ("userName[" ++ lab ++ "]\nuserName --> " ++ other).toList
      = "userName".toList ++ ('[' :: (lab.toList ++ (']' :: ('\n' ::
        ("userName".toList ++ (" --> ".toList ++ other.toList)))))) := by
    show (("userName[".toList ++ lab.toList) ++ "]\nuserName --> ".toList)
        ++ other.toList = _
    rw [e3, e4]
    simp
  rw [htl, sanitizeMermaidL_c6 hlab hone hoth, ← htr]
  rfl

/-- Witness for C6 at the concrete label `Label` and edge target `other`. -/
theorem node_rename_consistent_witness :
    ((∀ c ∈ ("Label" : String).toList, c.isAlpha = true ∨ c = ' ')
      ∧ ("other" : String).toList ≠ []
      ∧ (∀ c ∈ ("other" : String).toList, c.isAlpha = true))
    ∧ sanitizeMermaid ("user_name[" ++ "Label" ++ "]\nuser_name --> " ++ "other")
        = "userName[" ++ "Label" ++ "]\nuserName --> " ++ "other" :=
  ⟨⟨by decide, by decide, by decide⟩,
   node_rename_consistent "Label" "other" (by decide) (by decide) (by decide)⟩

end SageScript
